import Mathlib

/-!
Shallow embedding of the dictionary database builder (`src/db/src/writer.rs`)
and its loader, together with theorems checking the specification's claims.

Strings are modelled as `List Char` (Rust `String`), bytes as `Nat` values,
and machine `u32` arithmetic as `Nat` with explicit reduction modulo `2^32`
at the points where the source performs an `as u32` cast.
-/

namespace JpDict

/-- A Rust `String` / `&str`, modelled as its list of unicode code points. -/
abbrev Str := List Char

/-- Reduction modulo `2^32`, the effect of Rust's `as u32` cast on a width-
independent natural number. -/
def u32Mod (n : Nat) : Nat := n % 4294967296

/-- The two's complement `u32` bit pattern of an `i32` value, as produced by
storing the signed field of a record into the packed little-endian layout. -/
def intBits (i : Int) : Nat := (i % 4294967296).toNat

/-- UTF-8 encoding of a single code point (the byte representation underlying
a Rust `String`). -/
def charUtf8 (c : Char) : List Nat :=
  let n := c.toNat
  if n < 128 then [n]
  else if n < 2048 then [192 + n / 64, 128 + n % 64]
  else if n < 65536 then [224 + n / 4096, 128 + n / 64 % 64, 128 + n % 64]
  else [240 + n / 262144, 128 + n / 4096 % 64, 128 + n / 64 % 64, 128 + n % 64]

/-- The UTF-8 byte stream of a string, i.e. the Rust `str::as_bytes` view. -/
def strBytes (s : Str) : List Nat := s.flatMap charUtf8

/-- Byte length of a string, i.e. Rust `String::len`. -/
def utf8Len (s : Str) : Nat := (strBytes s).length

/-- Byte-offset based drop on a string: models slicing `&s[n..]` where `n`
always falls on a character boundary in the uses below. -/
def dropBytes (n : Nat) : Str → Str
  | [] => []
  | c :: s => if n = 0 then c :: s else dropBytes (n - (charUtf8 c).length) s

/-- Byte-count based take on a string: models slicing `&s[..n]` where `n`
always falls on a character boundary in the uses below. -/
def takeBytes (n : Nat) : Str → Str
  | [] => []
  | c :: s => if n = 0 then [] else c :: takeBytes (n - (charUtf8 c).length) s

/-! ### Comparators

Rust's `Ord::cmp` on `u32` / `i32` values and byte-wise `&str` comparison,
and the boolean "not greater" form used to phrase `sort_by` as a stable
insertion sort. -/

/-- `u32::cmp`. -/
def cmpN (a b : Nat) : Ordering := if a < b then .lt else if a = b then .eq else .gt

/-- `i32::cmp`. -/
def cmpI (a b : Int) : Ordering := if a < b then .lt else if a = b then .eq else .gt

/-- `str::cmp`: lexicographic comparison. Rust compares the UTF-8 bytes;
comparing code points is equivalent because UTF-8 preserves code point
order. -/
def strCmp : Str → Str → Ordering
  | [], [] => .eq
  | [], _ :: _ => .lt
  | _ :: _, [] => .gt
  | a :: as_, b :: bs =>
    match cmpN a.toNat b.toNat with
    | .eq => strCmp as_ bs
    | o => o

/-- `o ≠ Ordering::Greater` as a boolean, the "less or equal" reading of a
three-way comparator that a stable sort keys on. -/
def notGT : Ordering → Bool
  | .gt => false
  | _ => true

/-- The boolean "key not greater" relation used for the prefix/suffix sorts. -/
def strLe (a b : Str) : Bool := notGT (strCmp a b)

/-! ### Stable sort

Rust's `<[T]>::sort_by` is a stable sort driven by a three-way comparator.
It is modelled by a stable insertion sort keyed on the boolean relation
`le a b := cmp a b ≠ Greater`: stable sorts for a total preorder agree, so
this is the behaviour of the source's sort. -/

/-- Insert `x` before the first element `y` with `le x y`; skipping past the
elements strictly smaller keeps the sort stable. -/
def insertBy (le : α → α → Bool) (x : α) : List α → List α
  | [] => [x]
  | y :: ys => if le x y then x :: y :: ys else y :: insertBy le x ys

/-- Stable sort by the boolean relation `le`, modelling `sort_by`. -/
def sortBy (le : α → α → Bool) : List α → List α
  | [] => []
  | x :: xs => insertBy le x (sortBy le xs)

/-! ### Intake data (`TagData`, `TermData`, `KanjiData`)

The record types accepted by the writer, with `u32` string/tag indices as
`Nat`, `i32` fields as `Int`, and `char` as `Char`. -/

/-- Tag data for writing (`TagData`). -/
structure TagData where
  name : Nat
  category : Nat
  order : Int
  notes : Nat
deriving DecidableEq

/-- Term data for writing (`TermData`). -/
structure TermData where
  expression : Nat
  reading : Nat
  search_key : Nat
  score : Int
  sequence : Nat
  frequency : Nat
  glossary : List Nat
  rules : List Nat
  term_tags : List Nat
  definition_tags : List Nat
  source : Nat
deriving DecidableEq

/-- Kanji data for writing (`KanjiData`). -/
structure KanjiData where
  character : Char
  frequency : Nat
  meanings : List Nat
  onyomi : List Nat
  kunyomi : List Nat
  tags : List Nat
  stats : List (Nat × Nat)
  source : Nat
deriving DecidableEq

/-- Association-list lookup, models `HashMap::get` / `HashMap::index`: the
most recent `insert` wins because insertion prepends. -/
def lookupA {β : Type} : List (Str × β) → Str → Option β
  | [], _ => none
  | (k, v) :: rest, s => if k = s then some v else lookupA rest s

/-- The database writer state (`Writer`). `HashMap` fields are modelled as
association lists where insertion prepends, so lookup returns the most
recently inserted binding. -/
structure Writer where
  terms : List TermData
  kanji : List KanjiData
  tags : List TagData
  tag_index : List (Str × Nat)
  string_list : List (Nat × Nat)
  string_data : Str
  string_hash : List (Str × Nat)

/-- `Writer::string`: return an interned string from its index. The source
indexes `string_list` directly (panicking when out of range); the model
totalizes with a `(0, 0)` descriptor, which decodes to the empty string. -/
def Writer.string (w : Writer) (index : Nat) : Str :=
  let p := w.string_list.getD index (0, 0)
  takeBytes p.2 (dropBytes p.1 w.string_data)

/-- `Writer::intern`: intern a string and return its serialized index. -/
def Writer.intern (w : Writer) (value : Str) : Nat × Writer :=
  match lookupA w.string_hash value with
  | some index => (index, w)
  | none =>
    let offset := u32Mod (utf8Len w.string_data)
    let length := u32Mod (utf8Len value)
    let index := u32Mod w.string_list.length
    (index,
      { w with
        string_list := w.string_list ++ [(offset, length)]
        string_data := w.string_data ++ value
        string_hash := (value, index) :: w.string_hash })

/-- `Writer::new`: a fresh writer, with the empty string interned at 0. -/
def Writer.new : Writer :=
  (Writer.intern
    { terms := [], kanji := [], tags := [], tag_index := []
      string_list := [], string_data := [], string_hash := [] } []).2

/-- `Writer::push_tag`: append a tag and bind its name to its position. -/
def Writer.push_tag (w : Writer) (tag : TagData) : Writer :=
  { w with
    tag_index := (w.string tag.name, u32Mod w.tags.length) :: w.tag_index
    tags := w.tags ++ [tag] }

/-- `Writer::push_term`. -/
def Writer.push_term (w : Writer) (term : TermData) : Writer :=
  { w with terms := w.terms ++ [term] }

/-- `Writer::push_kanji`. -/
def Writer.push_kanji (w : Writer) (kanji : KanjiData) : Writer :=
  { w with kanji := w.kanji ++ [kanji] }

/-- `Writer::get_tag`: a tag index from its name. The source indexes the
hash map directly (panicking when absent); the model totalizes with 0. -/
def Writer.get_tag (w : Writer) (name : Str) : Nat :=
  (lookupA w.tag_index name).getD 0

/-- `Writer::get_tags`. -/
def Writer.get_tags (w : Writer) (names : List Str) : List Nat :=
  names.map (w.get_tag)

/-! ### Well-formedness of the string pool

What holds of every writer reachable through the public operations, as far
as the intern/lookup round trip needs it: every stored descriptor addresses
an exact character-boundary range of the blob, the dedup map is consistent
with the descriptor table, and the `as u32` casts performed so far did not
truncate. -/

/-- A `(byte offset, byte length)` descriptor addresses an exact substring
of the blob, on character boundaries. -/
def Descr (data : Str) (q : Nat × Nat) : Prop :=
  ∃ pre mid post, data = pre ++ mid ++ post ∧ q.1 = utf8Len pre ∧ q.2 = utf8Len mid

/-- The string-pool invariant of a writer. -/
structure PoolWF (w : Writer) : Prop where
  /-- Every stored descriptor is a boundary range of the blob. -/
  descr_sound : ∀ q ∈ w.string_list, Descr w.string_data q
  /-- Every binding in the dedup map is in range and points at a descriptor
  decoding back to the interned string. -/
  hash_sound : ∀ p ∈ w.string_hash, p.2 < w.string_list.length ∧ Writer.string w p.2 = p.1
  /-- No `as u32` truncation has occurred on the data length so far. -/
  data_small : utf8Len w.string_data < 4294967296
  /-- No `as u32` truncation has occurred on the descriptor count so far. -/
  list_small : w.string_list.length < 4294967296

/-! ### Record sorting (`Writer::write`, sort phase)

`sort_by` comparators for terms (frequency descending, then score
descending) and kanji (frequency descending). -/

/-- The term comparator of `Writer::write`: frequency descending, then
score descending. -/
def termCmp (a b : TermData) : Ordering :=
  if a.frequency ≠ b.frequency then cmpN b.frequency a.frequency
  else cmpI b.score a.score

/-- The boolean "not greater" form of `termCmp` driving the stable sort. -/
def termLeB (a b : TermData) : Bool := notGT (termCmp a b)

/-- The kanji comparator of `Writer::write`: frequency descending. -/
def kanjiLeB (a b : KanjiData) : Bool := notGT (cmpN b.frequency a.frequency)

/-- The sorted term list of `Writer::write` (`self.terms.sort_by(...)`). -/
def sortTerms (ts : List TermData) : List TermData := sortBy termLeB ts

/-- The sorted kanji list of `Writer::write` (`self.kanji.sort_by(...)`). -/
def sortKanji (ks : List KanjiData) : List KanjiData := sortBy kanjiLeB ks

/-- Default term used to totalize positional indexing in statements. -/
def dTerm : TermData :=
  { expression := 0, reading := 0, search_key := 0, score := 0, sequence := 0,
    frequency := 0, glossary := [], rules := [], term_tags := [],
    definition_tags := [], source := 0 }

/-! ### Index building (`Writer::write`, index phase) -/

/-- The prefix-index emission loop: for each term position (starting at
`i`), emit `(expression, pos)`, then `(reading, pos)` when `reading > 0`,
then `(search_key, pos)` when `search_key > 0`. The position is the loop
counter cast `as u32`. -/
def emitIndexEntries : Nat → List TermData → List (Nat × Nat)
  | _, [] => []
  | i, t :: rest =>
    ((t.expression, u32Mod i)
        :: ((if 0 < t.reading then [(t.reading, u32Mod i)] else [])
          ++ (if 0 < t.search_key then [(t.search_key, u32Mod i)] else [])))
      ++ emitIndexEntries (i + 1) rest

/-- The prefix-index sort key: byte-wise order of the decoded key string. -/
def keyLeB (w : Writer) (a b : Nat × Nat) : Bool := strLe (w.string a.1) (w.string b.1)

/-- The prefix index built by `Writer::write`. -/
def indexPrefixJp (w : Writer) : List (Nat × Nat) :=
  sortBy (keyLeB w) (emitIndexEntries 0 (sortTerms w.terms))

/-- Combining-mark (`Grapheme_Extend`) test. Modelled from the spec: the
source keys the suffix sort on `unicode_segmentation` grapheme clusters
(crate code, not part of this repository); the spec's description is that
combining marks stay with their base character. The ranges here are the
combining-diacritic blocks and the kana voicing marks. -/
def isCombining (c : Char) : Bool :=
  (768 ≤ c.toNat && c.toNat ≤ 879)
    || (6832 ≤ c.toNat && c.toNat ≤ 6911)
    || (7616 ≤ c.toNat && c.toNat ≤ 7679)
    || (8400 ≤ c.toNat && c.toNat ≤ 8447)
    || (65056 ≤ c.toNat && c.toNat ≤ 65071)
    || c.toNat = 12441 || c.toNat = 12442

/-- Modelled from the spec: grapheme clustering (`str::graphemes`). A
cluster boundary falls before every non-combining character, so combining
marks stay attached to their base. -/
def graphemes (s : Str) : List Str :=
  s.foldr
    (fun c acc =>
      match acc with
      | [] => [[c]]
      | g :: gs =>
        match g with
        | [] => [c] :: gs
        | d :: _ => if isCombining d then (c :: g) :: gs else [c] :: g :: gs)
    []

/-- Modelled from the spec: grapheme-aware string reversal
(`.graphemes(true).rev().collect()`). -/
def graphemeRev (s : Str) : Str := (graphemes s).reverse.flatten

/-- The suffix-index sort key: byte-wise order of the grapheme-reversed
decoded key string. -/
def sufLeB (w : Writer) (a b : Nat × Nat) : Bool :=
  strLe (graphemeRev (w.string a.1)) (graphemeRev (w.string b.1))

/-- The suffix index built by `Writer::write`: the prefix entries, re-sorted
by the reversed key. -/
def indexSuffixJp (w : Writer) : List (Nat × Nat) :=
  sortBy (sufLeB w) (indexPrefixJp w)

/-- `HashSet`-backed per-character map insertion: record position `i` under
character `c`, deduplicating positions. -/
def insertCharIdx (c : Char) (i : Nat) : List (Char × List Nat) → List (Char × List Nat)
  | [] => [(c, [i])]
  | (k, v) :: rest =>
    if k = c then (k, if i ∈ v then v else v ++ [i]) :: rest
    else (k, v) :: insertCharIdx c i rest

/-- Record one term position under every character of its key string. -/
def addTermChars (i : Nat) : List (Char × List Nat) → Str → List (Char × List Nat)
  | m, [] => m
  | m, c :: cs => addTermChars i (insertCharIdx c i m) cs

/-- The char-index loop of `Writer::write`: for each term position, index
the characters of `expression ++ reading` (raw code-point iteration). -/
def buildCharMap (w : Writer) : Nat → List TermData → List (Char × List Nat) → List (Char × List Nat)
  | _, [], m => m
  | i, t :: ts, m =>
    buildCharMap w (i + 1) ts
      (addTermChars (u32Mod i) m (w.string t.expression ++ w.string t.reading))

/-- `u32` natural order, the key of the `indexes.sort()` call. -/
def natLeB (a b : Nat) : Bool := notGT (cmpN a b)

/-- The per-character index built by `Writer::write`: each entry's position
set collected and sorted ascending. -/
def indexCharsJp (w : Writer) : List (Char × List Nat) :=
  (buildCharMap w 0 (sortTerms w.terms) []).map (fun p => (p.1, sortBy natLeB p.2))

/-! ### Claims about the sort and index phases -/

/-- A term with the given frequency, score and sequence (other fields 0),
used in the concrete relevance-order scenario. -/
def c6term (fr : Nat) (sc : Int) (seq : Nat) : TermData :=
  { expression := 0, reading := 0, search_key := 0, score := sc, sequence := seq,
    frequency := fr, glossary := [], rules := [], term_tags := [],
    definition_tags := [], source := 0 }

/-- A term with the given expression index, frequency, score and sequence,
used to check that the indexes reference the post-sort positions. -/
def c6termE (e fr : Nat) (sc : Int) (seq : Nat) : TermData :=
  { expression := e, reading := 0, search_key := 0, score := sc, sequence := seq,
    frequency := fr, glossary := [], rules := [], term_tags := [],
    definition_tags := [], source := 0 }

/-- The relevance-order scenario's writer: expressions "a", "b", "c"
interned at indices 1, 2, 3 and three terms pushed with frequencies
`(0, 5, 5)` and scores `(9, 1, 2)`. -/
def c6writer : Writer :=
  let p1 := Writer.new.intern [Char.ofNat 97]
  let p2 := p1.2.intern [Char.ofNat 98]
  let p3 := p2.2.intern [Char.ofNat 99]
  ((p3.2.push_term (c6termE p1.1 0 9 0)).push_term (c6termE p2.1 5 1 1)).push_term
    (c6termE p3.1 5 2 2)

/-- A writer with the strings "a" and "b" interned and a single term whose
expression is "a" and reading is "b"; a concrete state for witnesses. -/
def demoW : Writer :=
  let p1 := Writer.new.intern [Char.ofNat 97]
  let p2 := p1.2.intern [Char.ofNat 98]
  p2.2.push_term
    { expression := p1.1, reading := p2.1, search_key := 0, score := 1, sequence := 1,
      frequency := 2, glossary := [], rules := [], term_tags := [],
      definition_tags := [], source := 0 }

/-! ### Raw records and their packed little-endian images

Modelled from the spec: the raw record types (`TagRaw`, `TermRaw`,
`KanjiRaw`, `TermIndex`, `CharIndex`, `StrHandle`, `VecHandle`, `RawUint32`)
live in `raw.rs`, which is not among the sources; their packed layouts
follow spec section 6 (each field a little-endian `u32`, a `VecHandle`
being two `u32`s, no padding). -/

/-- `(offset, length)` handle into the vector arena. -/
structure VecHandle where
  offset : Nat
  length : Nat
deriving DecidableEq

/-- Raw tag record: 4 `u32` fields (`order` stored as its bit pattern). -/
structure TagRaw where
  name : Nat
  category : Nat
  order : Nat
  notes : Nat
deriving DecidableEq

/-- Raw term record: 7 `u32` fields and 4 vector handles. -/
structure TermRaw where
  expression : Nat
  reading : Nat
  search_key : Nat
  score : Nat
  sequence : Nat
  frequency : Nat
  source : Nat
  glossary : VecHandle
  rules : VecHandle
  term_tags : VecHandle
  definition_tags : VecHandle
deriving DecidableEq

/-- Raw kanji record: 3 `u32` fields and 5 vector handles. -/
structure KanjiRaw where
  character : Nat
  frequency : Nat
  source : Nat
  meanings : VecHandle
  onyomi : VecHandle
  kunyomi : VecHandle
  tags : VecHandle
  stats : VecHandle
deriving DecidableEq

/-- Raw term-index entry: string index and term position. -/
structure TermIndex where
  key : Nat
  term : Nat
deriving DecidableEq

/-- Raw char-index entry: code point and handle to its position list. -/
structure CharIndex where
  character : Nat
  indexes : VecHandle
deriving DecidableEq

/-- Raw string descriptor: byte offset and byte length into the blob. -/
structure StrHandle where
  offset : Nat
  length : Nat
deriving DecidableEq

/-- The raw database assembled by `Writer::write` before byte output. -/
structure Raw where
  tags : List TagRaw
  terms : List TermRaw
  kanji : List KanjiRaw
  index_prefix_jp : List TermIndex
  index_suffix_jp : List TermIndex
  index_chars_jp : List CharIndex
  vector_data : List Nat
  string_list : List StrHandle
  string_data : Str
deriving DecidableEq

/-- Little-endian byte image of a `u32` (`u32::to_le_bytes`). -/
def u32le (n : Nat) : List Nat :=
  [n % 256, n / 256 % 256, n / 65536 % 256, n / 16777216 % 256]

/-- The `u32` denoted by four little-endian bytes. -/
def leU32 (b0 b1 b2 b3 : Nat) : Nat := b0 + 256 * b1 + 65536 * b2 + 16777216 * b3

/-- Packed little-endian image of a list of `u32` words: the bit-copied
in-memory image of a packed record. -/
def wordsBytes (ws : List Nat) : List Nat := ws.flatMap u32le

/-- Group a byte stream back into little-endian `u32` words (the typed view
a cast to a packed record produces). -/
def bytesToWords : List Nat → List Nat
  | b0 :: b1 :: b2 :: b3 :: rest => leU32 b0 b1 b2 b3 :: bytesToWords rest
  | _ => []

def TagRaw.words (t : TagRaw) : List Nat := [t.name, t.category, t.order, t.notes]

def TagRaw.bytes (t : TagRaw) : List Nat := wordsBytes t.words

def TagRaw.ofWords : List Nat → TagRaw
  | a :: b :: c :: d :: _ => ⟨a, b, c, d⟩
  | _ => ⟨0, 0, 0, 0⟩

def TagRaw.ofBytes (b : List Nat) : TagRaw := TagRaw.ofWords (bytesToWords b)

def TermRaw.words (t : TermRaw) : List Nat :=
  [t.expression, t.reading, t.search_key, t.score, t.sequence, t.frequency, t.source,
    t.glossary.offset, t.glossary.length, t.rules.offset, t.rules.length,
    t.term_tags.offset, t.term_tags.length,
    t.definition_tags.offset, t.definition_tags.length]

def TermRaw.bytes (t : TermRaw) : List Nat := wordsBytes t.words

def TermRaw.ofWords : List Nat → TermRaw
  | e :: r :: sk :: sc :: sq :: fr :: so :: g1 :: g2 :: r1 :: r2 :: t1 :: t2 :: d1 :: d2 :: _ =>
    ⟨e, r, sk, sc, sq, fr, so, ⟨g1, g2⟩, ⟨r1, r2⟩, ⟨t1, t2⟩, ⟨d1, d2⟩⟩
  | _ => ⟨0, 0, 0, 0, 0, 0, 0, ⟨0, 0⟩, ⟨0, 0⟩, ⟨0, 0⟩, ⟨0, 0⟩⟩

def TermRaw.ofBytes (b : List Nat) : TermRaw := TermRaw.ofWords (bytesToWords b)

def KanjiRaw.words (k : KanjiRaw) : List Nat :=
  [k.character, k.frequency, k.source,
    k.meanings.offset, k.meanings.length, k.onyomi.offset, k.onyomi.length,
    k.kunyomi.offset, k.kunyomi.length, k.tags.offset, k.tags.length,
    k.stats.offset, k.stats.length]

def KanjiRaw.bytes (k : KanjiRaw) : List Nat := wordsBytes k.words

def KanjiRaw.ofWords : List Nat → KanjiRaw
  | c :: fr :: so :: m1 :: m2 :: o1 :: o2 :: u1 :: u2 :: t1 :: t2 :: s1 :: s2 :: _ =>
    ⟨c, fr, so, ⟨m1, m2⟩, ⟨o1, o2⟩, ⟨u1, u2⟩, ⟨t1, t2⟩, ⟨s1, s2⟩⟩
  | _ => ⟨0, 0, 0, ⟨0, 0⟩, ⟨0, 0⟩, ⟨0, 0⟩, ⟨0, 0⟩, ⟨0, 0⟩⟩

def KanjiRaw.ofBytes (b : List Nat) : KanjiRaw := KanjiRaw.ofWords (bytesToWords b)

def TermIndex.words (t : TermIndex) : List Nat := [t.key, t.term]

def TermIndex.bytes (t : TermIndex) : List Nat := wordsBytes t.words

def TermIndex.ofWords : List Nat → TermIndex
  | k :: t :: _ => ⟨k, t⟩
  | _ => ⟨0, 0⟩

def TermIndex.ofBytes (b : List Nat) : TermIndex := TermIndex.ofWords (bytesToWords b)

def CharIndex.words (c : CharIndex) : List Nat :=
  [c.character, c.indexes.offset, c.indexes.length]

def CharIndex.bytes (c : CharIndex) : List Nat := wordsBytes c.words

def CharIndex.ofWords : List Nat → CharIndex
  | c :: o :: l :: _ => ⟨c, ⟨o, l⟩⟩
  | _ => ⟨0, ⟨0, 0⟩⟩

def CharIndex.ofBytes (b : List Nat) : CharIndex := CharIndex.ofWords (bytesToWords b)

def StrHandle.words (s : StrHandle) : List Nat := [s.offset, s.length]

def StrHandle.bytes (s : StrHandle) : List Nat := wordsBytes s.words

def StrHandle.ofWords : List Nat → StrHandle
  | o :: l :: _ => ⟨o, l⟩
  | _ => ⟨0, 0⟩

def StrHandle.ofBytes (b : List Nat) : StrHandle := StrHandle.ofWords (bytesToWords b)

/-- The `u32` at the start of a 4-byte chunk (a `RawUint32` arena element). -/
def leWord : List Nat → Nat
  | b0 :: b1 :: b2 :: b3 :: _ => leU32 b0 b1 b2 b3
  | _ => 0

/-- The byte at the start of a 1-byte chunk (a string-blob byte). -/
def byteOf : List Nat → Nat
  | b :: _ => b
  | _ => 0

/-! ### Serializer (`Raw::write` and helpers)

The output sink is Rust's `std::io::Write`: a stateful, fallible writer
whose `write` returns the number of bytes it accepted. The helpers mirror
`write_raw` / `write_u32` / `write_len` / `write_all` / `write_vec`; note
none of them inspects the returned byte count. -/

/-- A sink (`W: std::io::Write`): from a state and a buffer, an error or a
reported byte count and new state. -/
structure Sink (σ ε : Type) where
  write : σ → List Nat → Except ε (Nat × σ)

/-- `write_raw`: write the bit image of a value; the reported count is
discarded. -/
def write_raw {σ ε : Type} (k : Sink σ ε) (s : σ) (bytes : List Nat) : Except ε σ :=
  match k.write s bytes with
  | .ok p => .ok p.2
  | .error e => .error e

/-- `write_u32`: write a `u32` in little-endian form. -/
def write_u32 {σ ε : Type} (k : Sink σ ε) (s : σ) (value : Nat) : Except ε σ :=
  write_raw k s (u32le value)

/-- `write_len`: write a `usize` length cast `as u32`. -/
def write_len {σ ε : Type} (k : Sink σ ε) (s : σ) (value : Nat) : Except ε σ :=
  write_u32 k s (u32Mod value)

/-- The record loop inside `write_all` (and, with `u32le`, the element loop
inside `write_vec`). -/
def write_items {σ ε T : Type} (k : Sink σ ε) (enc : T → List Nat) :
    σ → List T → Except ε σ
  | s, [] => .ok s
  | s, t :: ts =>
    match write_raw k s (enc t) with
    | .ok s2 => write_items k enc s2 ts
    | .error e => .error e

/-- `write_all`: a `u32` length prefix, then the packed records. -/
def write_all {σ ε T : Type} (k : Sink σ ε) (enc : T → List Nat) (s : σ)
    (items : List T) : Except ε σ :=
  match write_len k s items.length with
  | .ok s2 => write_items k enc s2 items
  | .error e => .error e

/-- `write_vec`: a `u32` length prefix, then each `u32` element. -/
def write_vec {σ ε : Type} (k : Sink σ ε) (s : σ) (vec : List Nat) : Except ε σ :=
  match write_len k s vec.length with
  | .ok s2 => write_items k u32le s2 vec
  | .error e => .error e

/-- `Raw::write`: the nine sections in the authoritative order — tags,
terms, kanji, prefix index, suffix index, char index, vector arena,
string-descriptor table, string blob (byte-length prefix plus raw bytes). -/
def Raw.write {σ ε : Type} (raw : Raw) (k : Sink σ ε) (s : σ) : Except ε σ := do
  let s ← write_all k TagRaw.bytes s raw.tags
  let s ← write_all k TermRaw.bytes s raw.terms
  let s ← write_all k KanjiRaw.bytes s raw.kanji
  let s ← write_all k TermIndex.bytes s raw.index_prefix_jp
  let s ← write_all k TermIndex.bytes s raw.index_suffix_jp
  let s ← write_all k CharIndex.bytes s raw.index_chars_jp
  let s ← write_vec k s raw.vector_data
  let s ← write_all k StrHandle.bytes s raw.string_list
  let s ← write_len k s (utf8Len raw.string_data)
  write_raw k s (strBytes raw.string_data)

/-- A sink that accepts every buffer whole, accumulating the bytes. -/
def collector : Sink (List Nat) Empty :=
  ⟨fun s b => .ok (b.length, s ++ b)⟩

/-- One length-prefixed section as `write_all` emits it. -/
def secBytes {T : Type} (enc : T → List Nat) (items : List T) : List Nat :=
  u32le (u32Mod items.length) ++ items.flatMap enc

/-- The full byte stream `Raw::write` hands to a sink that accepts all
bytes. -/
def rawBytes (raw : Raw) : List Nat :=
  secBytes TagRaw.bytes raw.tags
    ++ (secBytes TermRaw.bytes raw.terms
    ++ (secBytes KanjiRaw.bytes raw.kanji
    ++ (secBytes TermIndex.bytes raw.index_prefix_jp
    ++ (secBytes TermIndex.bytes raw.index_suffix_jp
    ++ (secBytes CharIndex.bytes raw.index_chars_jp
    ++ (secBytes u32le raw.vector_data
    ++ (secBytes StrHandle.bytes raw.string_list
    ++ (u32le (u32Mod (utf8Len raw.string_data)) ++ strBytes raw.string_data))))))))

/-! ### Loader (`DB::load` and `read_slice`) -/

/-- Decode `count` packed records of `size` bytes each. -/
def decodeChunks {T : Type} (size : Nat) (dec : List Nat → T) : Nat → List Nat → List T
  | 0, _ => []
  | n + 1, bytes => dec (bytes.take size) :: decodeChunks size dec n (bytes.drop size)

/-- `read_slice`: read a `u32` little-endian count (asserting four bytes are
available), then reinterpret `count` fixed-size records, returning them with
the remaining bytes. A short buffer is fatal (`none`). -/
def readSlice {T : Type} (size : Nat) (dec : List Nat → T) :
    List Nat → Option (List T × List Nat)
  | b0 :: b1 :: b2 :: b3 :: src =>
    let count := leU32 b0 b1 b2 b3
    if size * count ≤ src.length then
      some (decodeChunks size dec count (src.take (size * count)), src.drop (size * count))
    else none
  | _ => none

/-- The loaded database: typed views over the mapped bytes (`DB`).
Modelled from the spec: the `DB` struct lives outside the given sources;
its fields are the nine sections in load order, the blob kept as bytes. -/
structure DB where
  tags : List TagRaw
  terms : List TermRaw
  kanji : List KanjiRaw
  index_prefix_jp : List TermIndex
  index_suffix_jp : List TermIndex
  index_chars_jp : List CharIndex
  vector_data : List Nat
  string_list : List StrHandle
  string_data : List Nat
deriving DecidableEq

/-- `DB::load`: read the nine sections back in the same order `Raw::write`
emitted them. -/
def DB.load (data : List Nat) : Option DB := do
  let (tags, data) ← readSlice 16 TagRaw.ofBytes data
  let (terms, data) ← readSlice 60 TermRaw.ofBytes data
  let (kanjiR, data) ← readSlice 52 KanjiRaw.ofBytes data
  let (ipre, data) ← readSlice 8 TermIndex.ofBytes data
  let (isuf, data) ← readSlice 8 TermIndex.ofBytes data
  let (ichr, data) ← readSlice 12 CharIndex.ofBytes data
  let (vdat, data) ← readSlice 4 leWord data
  let (slst, data) ← readSlice 8 StrHandle.ofBytes data
  let (sdat, _) ← readSlice 1 byteOf data
  pure { tags := tags, terms := terms, kanji := kanjiR, index_prefix_jp := ipre,
         index_suffix_jp := isuf, index_chars_jp := ichr, vector_data := vdat,
         string_list := slst, string_data := sdat }

/-- The typed image of a raw database, as the loader reconstructs it. -/
def dbOfRaw (raw : Raw) : DB :=
  { tags := raw.tags, terms := raw.terms, kanji := raw.kanji,
    index_prefix_jp := raw.index_prefix_jp, index_suffix_jp := raw.index_suffix_jp,
    index_chars_jp := raw.index_chars_jp, vector_data := raw.vector_data,
    string_list := raw.string_list, string_data := strBytes raw.string_data }

/-- No-truncation well-formedness of a raw database: every stored field and
every section count fits in a `u32`. Writers whose intake stayed within
`u32` ranges produce exactly these. -/
def RawWF (raw : Raw) : Prop :=
  (∀ t ∈ raw.tags, ∀ x ∈ TagRaw.words t, x < 4294967296)
  ∧ (∀ t ∈ raw.terms, ∀ x ∈ TermRaw.words t, x < 4294967296)
  ∧ (∀ k ∈ raw.kanji, ∀ x ∈ KanjiRaw.words k, x < 4294967296)
  ∧ (∀ t ∈ raw.index_prefix_jp, ∀ x ∈ TermIndex.words t, x < 4294967296)
  ∧ (∀ t ∈ raw.index_suffix_jp, ∀ x ∈ TermIndex.words t, x < 4294967296)
  ∧ (∀ c ∈ raw.index_chars_jp, ∀ x ∈ CharIndex.words c, x < 4294967296)
  ∧ (∀ x ∈ raw.vector_data, x < 4294967296)
  ∧ (∀ s ∈ raw.string_list, ∀ x ∈ StrHandle.words s, x < 4294967296)
  ∧ raw.tags.length < 4294967296
  ∧ raw.terms.length < 4294967296
  ∧ raw.kanji.length < 4294967296
  ∧ raw.index_prefix_jp.length < 4294967296
  ∧ raw.index_suffix_jp.length < 4294967296
  ∧ raw.index_chars_jp.length < 4294967296
  ∧ raw.vector_data.length < 4294967296
  ∧ raw.string_list.length < 4294967296
  ∧ utf8Len raw.string_data < 4294967296

/-! ### Assembling the raw database (`Writer::write`, serialization phase) -/

/-- `push_vec`: append a list to the vector arena and return its handle; an
empty list yields the sentinel `(0, 0)` handle without touching the arena. -/
def push_vec (arena : List Nat) (v : List Nat) : VecHandle × List Nat :=
  if v.length = 0 then (⟨0, 0⟩, arena)
  else (⟨u32Mod arena.length, u32Mod v.length⟩, arena ++ v)

/-- The arena slice a handle addresses. -/
def sliceVH (arena : List Nat) (h : VecHandle) : List Nat :=
  (arena.drop h.offset).take h.length

/-- The kanji loop of `Writer::write`: push each kanji's five lists (stats
flattened to alternating pairs) and build its raw record. -/
def buildKanji : List Nat → List KanjiData → List KanjiRaw × List Nat
  | arena, [] => ([], arena)
  | arena, kj :: rest =>
    let p1 := push_vec arena kj.meanings
    let p2 := push_vec p1.2 kj.onyomi
    let p3 := push_vec p2.2 kj.kunyomi
    let p4 := push_vec p3.2 kj.tags
    let p5 := push_vec p4.2 (kj.stats.flatMap (fun x => [x.1, x.2]))
    let rec1 := buildKanji p5.2 rest
    ({ character := kj.character.toNat, frequency := kj.frequency, source := kj.source,
       meanings := p1.1, onyomi := p2.1, kunyomi := p3.1, tags := p4.1,
       stats := p5.1 } :: rec1.1, rec1.2)

/-- The term loop of `Writer::write`: push each term's four lists and build
its raw record (`score` stored as its `u32` bit pattern). -/
def buildTerms : List Nat → List TermData → List TermRaw × List Nat
  | arena, [] => ([], arena)
  | arena, t :: rest =>
    let p1 := push_vec arena t.glossary
    let p2 := push_vec p1.2 t.rules
    let p3 := push_vec p2.2 t.term_tags
    let p4 := push_vec p3.2 t.definition_tags
    let rec1 := buildTerms p4.2 rest
    ({ expression := t.expression, reading := t.reading, search_key := t.search_key,
       score := intBits t.score, sequence := t.sequence, frequency := t.frequency,
       source := t.source, glossary := p1.1, rules := p2.1, term_tags := p3.1,
       definition_tags := p4.1 } :: rec1.1, rec1.2)

/-- The char-index conversion of `Writer::write`: push each entry's sorted
position list and record its handle. -/
def buildChars : List Nat → List (Char × List Nat) → List CharIndex × List Nat
  | arena, [] => ([], arena)
  | arena, p :: rest =>
    let p1 := push_vec arena p.2
    let rec1 := buildChars p1.2 rest
    ({ character := p.1.toNat, indexes := p1.1 } :: rec1.1, rec1.2)

/-- A tag's raw record (`order` stored as its `u32` bit pattern). -/
def tagRawOf (t : TagData) : TagRaw :=
  { name := t.name, category := t.category, order := intBits t.order, notes := t.notes }

/-- The raw database `Writer::write` assembles: records sorted, indexes
built, variable-length lists pushed into the arena in source order (kanji,
then terms, then char-index entries). -/
def writerRaw (w : Writer) : Raw :=
  let bk := buildKanji [] (sortKanji w.kanji)
  let bt := buildTerms bk.2 (sortTerms w.terms)
  let bc := buildChars bt.2 (indexCharsJp w)
  { tags := w.tags.map tagRawOf,
    terms := bt.1,
    kanji := bk.1,
    index_prefix_jp := (indexPrefixJp w).map (fun p => { key := p.1, term := p.2 }),
    index_suffix_jp := (indexSuffixJp w).map (fun p => { key := p.1, term := p.2 }),
    index_chars_jp := bc.1,
    vector_data := bc.2,
    string_list := w.string_list.map (fun p => { offset := p.1, length := p.2 }),
    string_data := w.string_data }

/-- `Writer::write`: assemble the raw database and emit it to the sink.
Before serializing, the source logs index statistics and in doing so
divides `total_indexes` by `num_char_keys = index_chars_jp.len()`; when no
character was indexed this divides zero by zero on `usize`, which panics,
so the write produces nothing. The panic is modelled as `none`. -/
def Writer.write {σ ε : Type} (w : Writer) (k : Sink σ ε) (s : σ) : Option (Except ε σ) :=
  if (indexCharsJp w).length = 0 then none
  else some (Raw.write (writerRaw w) k s)

/-- Field-by-field correspondence of a pushed term and its raw record
against the final arena. -/
def termMatches (arena : List Nat) (t : TermData) (r : TermRaw) : Prop :=
  r.expression = t.expression ∧ r.reading = t.reading ∧ r.search_key = t.search_key
    ∧ r.score = intBits t.score ∧ r.sequence = t.sequence ∧ r.frequency = t.frequency
    ∧ r.source = t.source
    ∧ sliceVH arena r.glossary = t.glossary ∧ sliceVH arena r.rules = t.rules
    ∧ sliceVH arena r.term_tags = t.term_tags
    ∧ sliceVH arena r.definition_tags = t.definition_tags

/-- Field-by-field correspondence of a pushed kanji and its raw record
against the final arena. -/
def kanjiMatches (arena : List Nat) (kj : KanjiData) (r : KanjiRaw) : Prop :=
  r.character = kj.character.toNat ∧ r.frequency = kj.frequency ∧ r.source = kj.source
    ∧ sliceVH arena r.meanings = kj.meanings ∧ sliceVH arena r.onyomi = kj.onyomi
    ∧ sliceVH arena r.kunyomi = kj.kunyomi ∧ sliceVH arena r.tags = kj.tags
    ∧ sliceVH arena r.stats = kj.stats.flatMap (fun x => [x.1, x.2])

theorem charUtf8_length_pos (c : Char) : 0 < (charUtf8 c).length := by
  simp only [charUtf8]
  split
  · simp
  · split
    · simp
    · split
      · simp
      · simp

theorem strBytes_append (a b : Str) : strBytes (a ++ b) = strBytes a ++ strBytes b := by
  simp [strBytes]

theorem utf8Len_append (a b : Str) : utf8Len (a ++ b) = utf8Len a + utf8Len b := by
  simp [utf8Len, strBytes_append]

theorem dropBytes_utf8Len (l r : Str) : dropBytes (utf8Len l) (l ++ r) = r := by
  induction l with
  | nil =>
    cases r with
    | nil => rfl
    | cons c s => simp [dropBytes, utf8Len, strBytes]
  | cons c l ih =>
    have hpos := charUtf8_length_pos c
    have hlen : utf8Len (c :: l) = (charUtf8 c).length + utf8Len l := by
      simp [utf8Len, strBytes]
    simp only [List.cons_append, dropBytes, hlen]
    rw [if_neg (by omega)]
    have : (charUtf8 c).length + utf8Len l - (charUtf8 c).length = utf8Len l := by omega
    rw [this]
    exact ih

theorem takeBytes_utf8Len (l r : Str) : takeBytes (utf8Len l) (l ++ r) = l := by
  induction l with
  | nil =>
    cases r with
    | nil => rfl
    | cons c s => simp [takeBytes, utf8Len, strBytes]
  | cons c l ih =>
    have hpos := charUtf8_length_pos c
    have hlen : utf8Len (c :: l) = (charUtf8 c).length + utf8Len l := by
      simp [utf8Len, strBytes]
    simp only [List.cons_append, takeBytes, hlen]
    rw [if_neg (by omega)]
    have : (charUtf8 c).length + utf8Len l - (charUtf8 c).length = utf8Len l := by omega
    rw [this]
    exact congrArg (List.cons c) ih

theorem cmpN_eq_lt {a b : Nat} : cmpN a b = .lt ↔ a < b := by
  unfold cmpN; split <;> simp_all <;> omega

theorem cmpN_eq_eq {a b : Nat} : cmpN a b = .eq ↔ a = b := by
  unfold cmpN; split <;> simp_all <;> omega

theorem cmpN_eq_gt {a b : Nat} : cmpN a b = .gt ↔ b < a := by
  unfold cmpN; split <;> simp_all <;> omega

theorem strCmp_self (s : Str) : strCmp s s = .eq := by
  induction s with
  | nil => rfl
  | cons c s ih => simp [strCmp, cmpN_eq_eq.mpr rfl, ih]

theorem strCmp_eq_iff {a b : Str} : strCmp a b = .eq ↔ a = b := by
  constructor
  · intro h
    induction a generalizing b with
    | nil => cases b with
      | nil => rfl
      | cons c bs => simp [strCmp] at h
    | cons c as_ ih =>
      cases b with
      | nil => simp [strCmp] at h
      | cons d bs =>
        simp only [strCmp] at h
        rcases ho : cmpN c.toNat d.toNat with _ | _ | _ <;> rw [ho] at h
        · exact absurd h (by simp)
        · have hc : c = d :=
            Char.eq_of_val_eq (UInt32.eq_of_toBitVec_eq (BitVec.eq_of_toNat_eq (cmpN_eq_eq.mp ho)))
          rw [hc, ih h]
        · exact absurd h (by simp)
  · rintro rfl; exact strCmp_self a

theorem strCmp_swap (a b : Str) : strCmp b a = (strCmp a b).swap := by
  induction a generalizing b with
  | nil => cases b <;> rfl
  | cons c as_ ih =>
    cases b with
    | nil => rfl
    | cons d bs =>
      simp only [strCmp]
      rcases Nat.lt_trichotomy c.toNat d.toNat with h | h | h
      · rw [cmpN_eq_lt.mpr h, cmpN_eq_gt.mpr h]; rfl
      · rw [cmpN_eq_eq.mpr h, cmpN_eq_eq.mpr h.symm]; exact ih bs
      · rw [cmpN_eq_gt.mpr h, cmpN_eq_lt.mpr h]; rfl

theorem strLe_total (a b : Str) : strLe a b = true ∨ strLe b a = true := by
  unfold strLe
  rcases h : strCmp a b with _ | _ | _
  · left; simp [notGT]
  · left; simp [notGT]
  · right; rw [strCmp_swap, h]; simp [notGT, Ordering.swap]

theorem strLe_trans {a b c : Str} (hab : strLe a b = true) (hbc : strLe b c = true) :
    strLe a c = true := by
  unfold strLe notGT at *
  induction a generalizing b c with
  | nil => cases c <;> simp [strCmp]
  | cons x as_ ih =>
    cases b with
    | nil => simp [strCmp] at hab
    | cons y bs =>
      cases c with
      | nil => simp [strCmp] at hbc
      | cons z cs =>
        simp only [strCmp] at hab hbc ⊢
        rcases h1 : cmpN x.toNat y.toNat with _ | _ | _ <;> rw [h1] at hab
        · -- x < y
          rcases h2 : cmpN y.toNat z.toNat with _ | _ | _ <;> rw [h2] at hbc
          · rw [cmpN_eq_lt.mpr (Nat.lt_trans (cmpN_eq_lt.mp h1) (cmpN_eq_lt.mp h2))]
          · rw [cmpN_eq_eq.mp h2] at h1; rw [cmpN_eq_lt.mpr (cmpN_eq_lt.mp h1)]
          · simp at hbc
        · -- x = y
          have hxy := cmpN_eq_eq.mp h1
          rcases h2 : cmpN y.toNat z.toNat with _ | _ | _ <;> rw [h2] at hbc
          · have hlt : x.toNat < z.toNat := by rw [hxy]; exact cmpN_eq_lt.mp h2
            rw [cmpN_eq_lt.mpr hlt]
          · rw [cmpN_eq_eq.mpr (hxy.trans (cmpN_eq_eq.mp h2))]
            exact ih hab hbc
          · simp at hbc
        · simp at hab

theorem perm_insertBy (le : α → α → Bool) (x : α) (l : List α) :
    List.Perm (insertBy le x l) (x :: l) := by
  induction l with
  | nil => rfl
  | cons y ys ih =>
    unfold insertBy
    split
    · rfl
    · exact (ih.cons y).trans (List.Perm.swap x y ys)

theorem perm_sortBy (le : α → α → Bool) (l : List α) : List.Perm (sortBy le l) l := by
  induction l with
  | nil => rfl
  | cons x xs ih => exact (perm_insertBy le x (sortBy le xs)).trans (ih.cons x)

theorem mem_insertBy {le : α → α → Bool} {x b : α} {l : List α} :
    b ∈ insertBy le x l ↔ b = x ∨ b ∈ l := by
  induction l with
  | nil => simp [insertBy]
  | cons y ys ih =>
    unfold insertBy
    split
    · simp
    · simp only [List.mem_cons, ih]
      tauto

theorem pairwise_insertBy {le : α → α → Bool}
    (htrans : ∀ a b c, le a b = true → le b c = true → le a c = true)
    (htotal : ∀ a b, le a b = true ∨ le b a = true)
    {x : α} {l : List α} (h : l.Pairwise (le · · = true)) :
    (insertBy le x l).Pairwise (le · · = true) := by
  induction l with
  | nil => simp [insertBy]
  | cons y ys ih =>
    rcases List.pairwise_cons.mp h with ⟨hy, hys⟩
    unfold insertBy
    split
    · rename_i hxy
      refine List.pairwise_cons.mpr ⟨?_, h⟩
      intro b hb
      rcases List.mem_cons.mp hb with rfl | hb
      · exact hxy
      · exact htrans x y b hxy (hy b hb)
    · rename_i hxy
      refine List.pairwise_cons.mpr ⟨?_, ih hys⟩
      intro b hb
      rcases mem_insertBy.mp hb with heq | hb
      · subst heq
        rcases htotal b y with h1 | h1
        · exact absurd h1 hxy
        · exact h1
      · exact hy b hb

theorem pairwise_sortBy {le : α → α → Bool}
    (htrans : ∀ a b c, le a b = true → le b c = true → le a c = true)
    (htotal : ∀ a b, le a b = true ∨ le b a = true)
    (l : List α) : (sortBy le l).Pairwise (le · · = true) := by
  induction l with
  | nil => simp [sortBy]
  | cons x xs ih => exact pairwise_insertBy htrans htotal ih

theorem sublist_insertBy (le : α → α → Bool) (x : α) (l : List α) :
    List.Sublist l (insertBy le x l) := by
  induction l with
  | nil => simp [insertBy]
  | cons y ys ih =>
    unfold insertBy
    split
    · exact List.Sublist.cons x (List.Sublist.refl _)
    · exact List.Sublist.cons₂ y ih

theorem cons_sublist_insertBy {le : α → α → Bool} {x : α} {c l : List α}
    (hc : List.Sublist c l) (hx : ∀ a ∈ c, le x a = true) : List.Sublist (x :: c) (insertBy le x l) := by
  induction l generalizing c with
  | nil =>
    rw [List.sublist_nil.mp hc]
    simp [insertBy]
  | cons y ys ih =>
    unfold insertBy
    split
    · exact List.Sublist.cons₂ x hc
    · rename_i hxy
      cases hc with
      | cons _ h => exact List.Sublist.cons y (ih h hx)
      | cons₂ _ h => exact absurd (hx y (List.mem_cons_self y _)) (by simpa using hxy)

/-- Stability of the modelled sort: a chain of entries already ordered by
`le` keeps its relative order. -/
theorem sublist_sortBy {le : α → α → Bool} {c l : List α}
    (hc : List.Sublist c l) (hp : c.Pairwise (le · · = true)) : List.Sublist c (sortBy le l) := by
  induction l generalizing c with
  | nil => simpa [sortBy] using hc
  | cons x xs ih =>
    cases hc with
    | cons _ h => exact (ih h hp).trans (sublist_insertBy le x _)
    | cons₂ _ h =>
      rcases List.pairwise_cons.mp hp with ⟨hx, hp2⟩
      exact cons_sublist_insertBy (ih h hp2) hx

/-- A boundary descriptor decodes to the very substring it was made from,
regardless of what follows it in the blob. -/
theorem descr_decode {pre mid post : Str} :
    takeBytes (utf8Len mid) (dropBytes (utf8Len pre) (pre ++ mid ++ post)) = mid := by
  rw [List.append_assoc, dropBytes_utf8Len, takeBytes_utf8Len]

theorem lookupA_mem {β : Type} {m : List (Str × β)} {s : Str} {v : β}
    (h : lookupA m s = some v) : (s, v) ∈ m := by
  induction m with
  | nil => simp [lookupA] at h
  | cons p rest ih =>
    rw [lookupA] at h
    split at h
    · rename_i heq
      cases h
      cases p
      simp_all
    · exact List.mem_cons_of_mem p (ih h)

theorem getD_append_length {α : Type} (l : List α) (a d : α) :
    (l ++ [a]).getD l.length d = a := by
  induction l with
  | nil => rfl
  | cons x xs ih => simpa using ih

theorem poolWF_new : PoolWF Writer.new := by
  refine ⟨?_, ?_, by decide, by decide⟩
  · intro q hq
    have hl : Writer.new.string_list = [(0, 0)] := rfl
    rw [hl] at hq
    have hq2 : q = (0, 0) := by simpa using hq
    subst hq2
    exact ⟨[], [], [], rfl, rfl, rfl⟩
  · intro p hp
    have hl : Writer.new.string_hash = [([], 0)] := rfl
    rw [hl] at hp
    have hp2 : p = ([], 0) := by simpa using hp
    subst hp2
    exact ⟨by decide, rfl⟩

/-- C7: for every (well-formed) writer and string `s`, looking up the index
returned by `intern s` yields `s` back; a repeated `intern s` returns the
same index (and leaves the writer unchanged); and on a freshly created
writer interning the empty string returns index 0. -/
theorem intern_lookup_roundtrip (w : Writer) (hWF : PoolWF w) (s : Str)
    (hroom : utf8Len w.string_data + utf8Len s < 4294967296) :
    ((w.intern s).2.string (w.intern s).1 = s)
    ∧ ((w.intern s).2.intern s = w.intern s)
    ∧ (Writer.new.intern []).1 = 0 := by
  refine ⟨?_, ?_, by decide⟩
  · unfold Writer.intern
    cases hfind : lookupA w.string_hash s with
    | some i =>
      simpa using (hWF.hash_sound (s, i) (lookupA_mem hfind)).2
    | none =>
      simp only []
      have hoff : u32Mod (utf8Len w.string_data) = utf8Len w.string_data :=
        Nat.mod_eq_of_lt hWF.data_small
      have hlen : u32Mod (utf8Len s) = utf8Len s := Nat.mod_eq_of_lt (by omega)
      have hidx : u32Mod w.string_list.length = w.string_list.length :=
        Nat.mod_eq_of_lt hWF.list_small
      simp only [Writer.string, hoff, hlen, hidx, getD_append_length]
      have : w.string_data ++ s = w.string_data ++ (s ++ []) := by simp
      rw [this, dropBytes_utf8Len, takeBytes_utf8Len]
  · unfold Writer.intern
    cases hfind : lookupA w.string_hash s with
    | some i => simp [hfind]
    | none => simp [lookupA]

/-- Witness for C7 at a fresh writer and the string "a". -/
theorem intern_lookup_roundtrip_witness :
    ((Writer.new.intern [Char.ofNat 97]).2.string (Writer.new.intern [Char.ofNat 97]).1
        = [Char.ofNat 97])
    ∧ ((Writer.new.intern [Char.ofNat 97]).2.intern [Char.ofNat 97]
        = Writer.new.intern [Char.ofNat 97])
    ∧ (Writer.new.intern []).1 = 0 :=
  intern_lookup_roundtrip Writer.new poolWF_new [Char.ofNat 97] (by decide)

/-- C10: pushing two tags whose names decode to the same string keeps both
records in the tag table at consecutive positions, while `get_tag` on that
name returns the position of the later-pushed tag (the binding is
overwritten, not rejected). -/
theorem push_tag_duplicate_overwrites (w : Writer) (t1 t2 : TagData)
    (hname : w.string t1.name = w.string t2.name) :
    ((w.push_tag t1).push_tag t2).tags = w.tags ++ [t1, t2]
    ∧ ((w.push_tag t1).push_tag t2).get_tag (w.string t1.name)
        = u32Mod (w.tags.length + 1) := by
  constructor
  · simp [Writer.push_tag]
  · simp only [Writer.push_tag, Writer.get_tag, lookupA]
    split
    · simp
    · rename_i hcond
      exact absurd hname.symm hcond

/-- Witness for C10: two tags made on a fresh writer with the same name
index 0 (the interned empty string). -/
theorem push_tag_duplicate_overwrites_witness :
    ((Writer.new.push_tag ⟨0, 0, 0, 0⟩).push_tag ⟨0, 0, 1, 0⟩).tags
        = Writer.new.tags ++ [⟨0, 0, 0, 0⟩, ⟨0, 0, 1, 0⟩]
    ∧ ((Writer.new.push_tag ⟨0, 0, 0, 0⟩).push_tag ⟨0, 0, 1, 0⟩).get_tag
        (Writer.new.string (0 : Nat))
        = u32Mod (Writer.new.tags.length + 1) :=
  push_tag_duplicate_overwrites Writer.new ⟨0, 0, 0, 0⟩ ⟨0, 0, 1, 0⟩ rfl

theorem notGT_cmpN {a b : Nat} : notGT (cmpN a b) = true ↔ a ≤ b := by
  simp only [cmpN]
  split
  · rename_i h; simp [notGT]; omega
  · split
    · rename_i h; simp [notGT]; omega
    · rename_i h1 h2; simp [notGT]; omega

theorem notGT_cmpI {a b : Int} : notGT (cmpI a b) = true ↔ a ≤ b := by
  simp only [cmpI]
  split
  · rename_i h; simp [notGT]; omega
  · split
    · rename_i h; simp [notGT]; omega
    · rename_i h1 h2; simp [notGT]; omega

theorem termLeB_iff {a b : TermData} :
    termLeB a b = true ↔
      b.frequency < a.frequency
        ∨ (a.frequency = b.frequency ∧ b.score ≤ a.score) := by
  unfold termLeB termCmp
  by_cases hf : a.frequency = b.frequency
  · rw [if_neg (not_not_intro hf), notGT_cmpI]
    omega
  · rw [if_pos hf, notGT_cmpN]
    omega

theorem termLeB_trans (a b c : TermData) (hab : termLeB a b = true)
    (hbc : termLeB b c = true) : termLeB a c = true := by
  rw [termLeB_iff] at *
  omega

theorem termLeB_total (a b : TermData) : termLeB a b = true ∨ termLeB b a = true := by
  rw [termLeB_iff, termLeB_iff]
  omega

theorem kanjiLeB_iff {a b : KanjiData} :
    kanjiLeB a b = true ↔ b.frequency ≤ a.frequency := by
  unfold kanjiLeB; rw [notGT_cmpN]

/-- C6 counterexample: with frequencies `(0, 5, 5)` and scores `(9, 1, 2)`,
the sort puts original index 2 (freq 5, score 2) first, then original
index 1 (freq 5, score 1), then original index 0 — not original index 1
first as the claim states. -/
theorem terms_sort_claim_counterexample :
    sortTerms [c6term 0 9 0, c6term 5 1 1, c6term 5 2 2]
        = [c6term 5 2 2, c6term 5 1 1, c6term 0 9 0]
    ∧ sortTerms [c6term 0 9 0, c6term 5 1 1, c6term 5 2 2]
        ≠ [c6term 5 1 1, c6term 5 2 2, c6term 0 9 0] := by
  constructor
  · decide
  · decide

/-- C6 (amended): terms are sorted at write by frequency descending with
score descending as tie-breaker, stably on further ties; for frequencies
`(0, 5, 5)` and scores `(9, 1, 2)` the resulting order is original index 2,
then original index 1, then original index 0; and all index entries
reference these new positions: with expressions "a", "b", "c" (string
indices 1, 2, 3) on the three terms, the prefix and suffix indexes map
key "c" (original index 2) to position 0, "b" (original index 1) to
position 1 and "a" (original index 0) to position 2, and the char index
maps the characters 'c', 'b', 'a' to those same new positions. -/
theorem terms_sort_spec :
    (∀ l : List TermData,
      List.Perm (sortTerms l) l
      ∧ (sortTerms l).Pairwise (fun a b =>
          b.frequency < a.frequency ∨ (a.frequency = b.frequency ∧ b.score ≤ a.score))
      ∧ (∀ c, List.Sublist c l →
          c.Pairwise (fun a b => a.frequency = b.frequency ∧ a.score = b.score) →
          List.Sublist c (sortTerms l)))
    ∧ sortTerms [c6term 0 9 0, c6term 5 1 1, c6term 5 2 2]
        = [c6term 5 2 2, c6term 5 1 1, c6term 0 9 0]
    ∧ sortTerms c6writer.terms = [c6termE 3 5 2 2, c6termE 2 5 1 1, c6termE 1 0 9 0]
    ∧ indexPrefixJp c6writer = [(1, 2), (2, 1), (3, 0)]
    ∧ indexSuffixJp c6writer = [(1, 2), (2, 1), (3, 0)]
    ∧ indexCharsJp c6writer
        = [(Char.ofNat 99, [0]), (Char.ofNat 98, [1]), (Char.ofNat 97, [2])] := by
  refine ⟨?_, by decide, by decide, by decide, by decide, by decide⟩
  intro l
  refine ⟨perm_sortBy _ _, ?_, ?_⟩
  · exact (pairwise_sortBy termLeB_trans termLeB_total l).imp
      (fun hab => termLeB_iff.mp hab)
  · intro c hc hp
    exact sublist_sortBy hc
      (hp.imp (fun hab => termLeB_iff.mpr (Or.inr ⟨hab.1, le_of_eq hab.2.symm⟩)))

/-- Witness for C6's amended statement: two terms tied on frequency and
score keep their intake order below a higher-frequency term. -/
theorem terms_sort_spec_witness :
    List.Sublist [c6term 5 1 1, c6term 5 1 2]
      (sortTerms [c6term 0 9 0, c6term 5 1 1, c6term 5 1 2]) :=
  (terms_sort_spec.1 [c6term 0 9 0, c6term 5 1 1, c6term 5 1 2]).2.2
    [c6term 5 1 1, c6term 5 1 2]
    (List.Sublist.cons _ (List.Sublist.refl _))
    (by decide)

theorem strLe_of_eq {a b : Str} (h : a = b) : strLe a b = true := by
  subst h
  unfold strLe
  rw [strCmp_self]
  rfl

/-- C4: the suffix index is a permutation of the prefix index (same
entries, each keeping its original string index), sorted by the
grapheme-reversed form of each key's decoded string; grapheme reversal
keeps combining marks attached to their base character (shown on the
spec's `"bá"` / `"ca"` example), unlike code-point reversal. -/
theorem suffix_index_spec (w : Writer) :
    List.Perm (indexSuffixJp w) (indexPrefixJp w)
    ∧ (indexSuffixJp w).Pairwise
        (fun a b => strLe (graphemeRev (w.string a.1)) (graphemeRev (w.string b.1)) = true)
    ∧ graphemeRev [Char.ofNat 98, Char.ofNat 97, Char.ofNat 769]
        = [Char.ofNat 97, Char.ofNat 769, Char.ofNat 98]
    ∧ graphemeRev [Char.ofNat 99, Char.ofNat 97] = [Char.ofNat 97, Char.ofNat 99] := by
  refine ⟨perm_sortBy _ _, ?_, by decide, by decide⟩
  exact (@pairwise_sortBy _ (sufLeB w)
    (fun a b c hab hbc => strLe_trans hab hbc)
    (fun a b => strLe_total _ _)
    (indexPrefixJp w)).imp (fun hab => hab)

theorem mem_emitIndexEntries {e : Nat × Nat} {i0 : Nat} {ts : List TermData} :
    e ∈ emitIndexEntries i0 ts ↔
      ∃ j, j < ts.length ∧ e.2 = u32Mod (i0 + j)
        ∧ (e.1 = (ts.getD j dTerm).expression
          ∨ (e.1 = (ts.getD j dTerm).reading ∧ 0 < (ts.getD j dTerm).reading)
          ∨ (e.1 = (ts.getD j dTerm).search_key ∧ 0 < (ts.getD j dTerm).search_key)) := by
  induction ts generalizing i0 with
  | nil => simp [emitIndexEntries]
  | cons t rest ih =>
    simp only [emitIndexEntries, List.mem_append, List.mem_cons]
    constructor
    · intro h
      rcases h with (h | hA | hB) | h
      · exact ⟨0, by simp, by rw [h]; simp, Or.inl (by rw [h]; simp)⟩
      · split at hA
        · rename_i hr
          simp only [List.mem_singleton] at hA
          exact ⟨0, by simp, by rw [hA]; simp,
            Or.inr (Or.inl ⟨by rw [hA]; simp, by simpa using hr⟩)⟩
        · simp at hA
      · split at hB
        · rename_i hs
          simp only [List.mem_singleton] at hB
          exact ⟨0, by simp, by rw [hB]; simp,
            Or.inr (Or.inr ⟨by rw [hB]; simp, by simpa using hs⟩)⟩
        · simp at hB
      · rcases ih.mp h with ⟨j, hj, h2, h3⟩
        refine ⟨j + 1, by simpa using hj, ?_, by simpa using h3⟩
        rw [h2]
        congr 1
        omega
    · rintro ⟨j, hj, h2, h3⟩
      cases j with
      | zero =>
        left
        simp only [List.getD_cons_zero] at h3
        have h2' : e.2 = u32Mod i0 := by simpa using h2
        rcases h3 with h3 | h3 | h3
        · exact Or.inl (Prod.ext_iff.mpr ⟨h3, h2'⟩)
        · refine Or.inr (Or.inl ?_)
          rw [if_pos h3.2]
          exact List.mem_singleton.mpr (Prod.ext_iff.mpr ⟨h3.1, h2'⟩)
        · refine Or.inr (Or.inr ?_)
          rw [if_pos h3.2]
          exact List.mem_singleton.mpr (Prod.ext_iff.mpr ⟨h3.1, h2'⟩)
      | succ j =>
        right
        apply ih.mpr
        refine ⟨j, by simpa using hj, ?_, by simpa using h3⟩
        rw [h2]
        congr 1
        omega

/-- C3: the prefix index is a permutation of the entries emitted per sorted
term position (expression always; reading and search key exactly when
nonzero), its membership is exactly that emission rule, it is sorted by
byte-wise order of the keys' decoded strings, and the sort is stable:
entries with equal key strings keep their emission order. -/
theorem prefix_index_spec (w : Writer) :
    List.Perm (indexPrefixJp w) (emitIndexEntries 0 (sortTerms w.terms))
    ∧ (∀ e : Nat × Nat, e ∈ indexPrefixJp w ↔
        ∃ j, j < (sortTerms w.terms).length ∧ e.2 = u32Mod j
          ∧ (e.1 = ((sortTerms w.terms).getD j dTerm).expression
            ∨ (e.1 = ((sortTerms w.terms).getD j dTerm).reading
                ∧ 0 < ((sortTerms w.terms).getD j dTerm).reading)
            ∨ (e.1 = ((sortTerms w.terms).getD j dTerm).search_key
                ∧ 0 < ((sortTerms w.terms).getD j dTerm).search_key)))
    ∧ (indexPrefixJp w).Pairwise (fun a b => strLe (w.string a.1) (w.string b.1) = true)
    ∧ (∀ c, List.Sublist c (emitIndexEntries 0 (sortTerms w.terms)) →
        c.Pairwise (fun a b => w.string a.1 = w.string b.1) →
        List.Sublist c (indexPrefixJp w)) := by
  refine ⟨perm_sortBy _ _, ?_, ?_, ?_⟩
  · intro e
    rw [indexPrefixJp, (perm_sortBy (keyLeB w) _).mem_iff, mem_emitIndexEntries]
    simp
  · exact (@pairwise_sortBy _ (keyLeB w)
      (fun a b c hab hbc => strLe_trans hab hbc)
      (fun a b => strLe_total _ _)
      (emitIndexEntries 0 (sortTerms w.terms))).imp (fun hab => hab)
  · intro c hc hp
    exact sublist_sortBy hc (hp.imp (fun hab => strLe_of_eq hab))

/-- Witness for C3 at the demo writer: the reading entry `(2, 0)` is in the
prefix index because term 0 has nonzero reading index 2. -/
theorem prefix_index_spec_witness : ((2 : Nat), (0 : Nat)) ∈ indexPrefixJp demoW :=
  ((prefix_index_spec demoW).2.1 (2, 0)).mpr
    ⟨0, by decide, by decide, Or.inr (Or.inl (by decide))⟩

theorem natLeB_trans (a b c : Nat) (hab : natLeB a b = true) (hbc : natLeB b c = true) :
    natLeB a c = true := by
  unfold natLeB at *
  rw [notGT_cmpN] at *
  omega

theorem natLeB_total (a b : Nat) : natLeB a b = true ∨ natLeB b a = true := by
  unfold natLeB
  rw [notGT_cmpN, notGT_cmpN]
  omega

theorem nodup_insertCharIdx {m : List (Char × List Nat)} {c : Char} {i : Nat}
    (h : ∀ p ∈ m, p.2.Nodup) : ∀ p ∈ insertCharIdx c i m, p.2.Nodup := by
  induction m with
  | nil =>
    intro p hp
    simp only [insertCharIdx, List.mem_singleton] at hp
    subst hp
    simp
  | cons q rest ih =>
    obtain ⟨k, v⟩ := q
    intro p hp
    simp only [insertCharIdx] at hp
    split at hp
    · rcases List.mem_cons.mp hp with rfl | hp2
      · have hv : v.Nodup := h (k, v) (List.mem_cons_self _ _)
        by_cases hi : i ∈ v
        · simpa [hi] using hv
        · simp only [if_neg hi]
          have : (v ++ [i]).Nodup := by
            rw [List.nodup_append]
            exact ⟨hv, List.nodup_singleton i, by simpa using hi⟩
          simpa using this
      · exact h p (List.mem_cons_of_mem _ hp2)
    · rcases List.mem_cons.mp hp with rfl | hp2
      · exact h (k, v) (List.mem_cons_self _ _)
      · exact ih (fun p2 hp3 => h p2 (List.mem_cons_of_mem _ hp3)) p hp2

theorem nodup_addTermChars {i : Nat} {s : Str} {m : List (Char × List Nat)}
    (h : ∀ p ∈ m, p.2.Nodup) : ∀ p ∈ addTermChars i m s, p.2.Nodup := by
  induction s generalizing m with
  | nil => simpa [addTermChars] using h
  | cons c cs ih => exact ih (nodup_insertCharIdx h)

theorem nodup_buildCharMap {w : Writer} {ts : List TermData} {i0 : Nat}
    {m : List (Char × List Nat)} (h : ∀ p ∈ m, p.2.Nodup) :
    ∀ p ∈ buildCharMap w i0 ts m, p.2.Nodup := by
  induction ts generalizing i0 m with
  | nil => simpa [buildCharMap] using h
  | cons t rest ih => exact ih (nodup_addTermChars h)

theorem memCI_insertCharIdx {m : List (Char × List Nat)} {c : Char} {i : Nat}
    {c2 : Char} {i2 : Nat} :
    (∃ v, (c2, v) ∈ insertCharIdx c i m ∧ i2 ∈ v) ↔
      (∃ v, (c2, v) ∈ m ∧ i2 ∈ v) ∨ (c2 = c ∧ i2 = i) := by
  induction m with
  | nil =>
    simp only [insertCharIdx, List.mem_singleton, List.not_mem_nil, false_and,
      exists_const, false_or, Prod.mk.injEq]
    constructor
    · rintro ⟨v, ⟨rfl, rfl⟩, hi⟩
      exact ⟨rfl, by simpa using hi⟩
    · rintro ⟨rfl, rfl⟩
      exact ⟨[i2], ⟨rfl, rfl⟩, by simp⟩
  | cons q rest ih =>
    obtain ⟨k, v⟩ := q
    simp only [insertCharIdx]
    split
    · rename_i hk
      subst hk
      constructor
      · rintro ⟨vv, hvv, hi⟩
        rcases List.mem_cons.mp hvv with heq | hmem
        · rw [Prod.mk.injEq] at heq
          obtain ⟨rfl, rfl⟩ := heq
          by_cases hiv : i ∈ v
          · exact Or.inl ⟨v, List.mem_cons_self _ _, by simpa [hiv] using hi⟩
          · simp only [if_neg hiv, List.mem_append, List.mem_singleton] at hi
            rcases hi with hi | rfl
            · exact Or.inl ⟨v, List.mem_cons_self _ _, hi⟩
            · exact Or.inr ⟨rfl, rfl⟩
        · exact Or.inl ⟨vv, List.mem_cons_of_mem _ hmem, hi⟩
      · intro h
        rcases h with ⟨vv, hvv, hi⟩ | ⟨hcc, hii⟩
        · rcases List.mem_cons.mp hvv with heq | hmem
          · rw [Prod.mk.injEq] at heq
            obtain ⟨rfl, rfl⟩ := heq
            refine ⟨if i ∈ vv then vv else vv ++ [i], List.mem_cons_self _ _, ?_⟩
            split
            · exact hi
            · exact List.mem_append.mpr (Or.inl hi)
          · exact ⟨vv, List.mem_cons_of_mem _ hmem, hi⟩
        · subst hcc
          subst hii
          refine ⟨if i2 ∈ v then v else v ++ [i2], List.mem_cons_self _ _, ?_⟩
          by_cases hiv : i2 ∈ v
          · simp [hiv]
          · simp [hiv]
    · rename_i hk
      constructor
      · rintro ⟨vv, hvv, hi⟩
        rcases List.mem_cons.mp hvv with heq | hmem
        · rw [Prod.mk.injEq] at heq
          obtain ⟨rfl, rfl⟩ := heq
          exact Or.inl ⟨vv, List.mem_cons_self _ _, hi⟩
        · rcases ih.mp ⟨vv, hmem, hi⟩ with ⟨vv2, hvv2, hi2⟩ | hci
          · exact Or.inl ⟨vv2, List.mem_cons_of_mem _ hvv2, hi2⟩
          · exact Or.inr hci
      · intro h
        rcases h with ⟨vv, hvv, hi⟩ | hci
        · rcases List.mem_cons.mp hvv with heq | hmem
          · rw [Prod.mk.injEq] at heq
            obtain ⟨rfl, rfl⟩ := heq
            exact ⟨vv, List.mem_cons_self _ _, hi⟩
          · rcases ih.mpr (Or.inl ⟨vv, hmem, hi⟩) with ⟨vv2, hvv2, hi2⟩
            exact ⟨vv2, List.mem_cons_of_mem _ hvv2, hi2⟩
        · rcases ih.mpr (Or.inr hci) with ⟨vv2, hvv2, hi2⟩
          exact ⟨vv2, List.mem_cons_of_mem _ hvv2, hi2⟩

theorem memCI_addTermChars {i : Nat} {s : Str} {m : List (Char × List Nat)}
    {c2 : Char} {i2 : Nat} :
    (∃ v, (c2, v) ∈ addTermChars i m s ∧ i2 ∈ v) ↔
      (∃ v, (c2, v) ∈ m ∧ i2 ∈ v) ∨ (c2 ∈ s ∧ i2 = i) := by
  induction s generalizing m with
  | nil => simp [addTermChars]
  | cons c cs ih =>
    rw [addTermChars, ih, memCI_insertCharIdx]
    simp only [List.mem_cons]
    constructor
    · rintro ((h | ⟨h1, h2⟩) | ⟨h1, h2⟩)
      · exact Or.inl h
      · exact Or.inr ⟨Or.inl h1, h2⟩
      · exact Or.inr ⟨Or.inr h1, h2⟩
    · rintro (h | ⟨(h1 | h1), h2⟩)
      · exact Or.inl (Or.inl h)
      · exact Or.inl (Or.inr ⟨h1, h2⟩)
      · exact Or.inr ⟨h1, h2⟩

theorem memCI_buildCharMap {w : Writer} {ts : List TermData} {i0 : Nat}
    {m : List (Char × List Nat)} {c : Char} {i : Nat} :
    (∃ v, (c, v) ∈ buildCharMap w i0 ts m ∧ i ∈ v) ↔
      (∃ v, (c, v) ∈ m ∧ i ∈ v)
        ∨ ∃ j, j < ts.length ∧ i = u32Mod (i0 + j)
            ∧ c ∈ w.string ((ts.getD j dTerm)).expression
                ++ w.string ((ts.getD j dTerm)).reading := by
  induction ts generalizing i0 m with
  | nil => simp [buildCharMap]
  | cons t rest ih =>
    rw [buildCharMap, ih, memCI_addTermChars]
    constructor
    · intro h
      rcases h with (h | ⟨hc, rfl⟩) | ⟨j, hj, h2, h3⟩
      · exact Or.inl h
      · exact Or.inr ⟨0, by simp, by simp, by simpa using hc⟩
      · refine Or.inr ⟨j + 1, by simpa using hj, ?_, by simpa using h3⟩
        rw [h2]
        congr 1
        omega
    · intro h
      rcases h with h | ⟨j, hj, h2, h3⟩
      · exact Or.inl (Or.inl h)
      · cases j with
        | zero =>
          refine Or.inl (Or.inr ⟨by simpa using h3, by simpa using h2⟩)
        | succ j =>
          refine Or.inr ⟨j, by simpa using hj, ?_, by simpa using h3⟩
          rw [h2]
          congr 1
          omega

/-- C5: every char-index entry's position list is sorted strictly ascending
(deduplicated), and a position `i` is recorded under a character `c` exactly
when `c` occurs (raw code-point iteration) in the expression or reading of
the sorted term at position `i`; characters only in `search_key` therefore
contribute nothing. -/
theorem char_index_spec (w : Writer) :
    (∀ p ∈ indexCharsJp w, p.2.Pairwise (· < ·))
    ∧ (∀ (c : Char) (i : Nat),
        (∃ v, (c, v) ∈ indexCharsJp w ∧ i ∈ v) ↔
          ∃ j, j < (sortTerms w.terms).length ∧ i = u32Mod j
            ∧ c ∈ w.string ((sortTerms w.terms).getD j dTerm).expression
                ++ w.string ((sortTerms w.terms).getD j dTerm).reading) := by
  constructor
  · intro p hp
    simp only [indexCharsJp, List.mem_map] at hp
    obtain ⟨q, hq, rfl⟩ := hp
    have hsorted := @pairwise_sortBy _ natLeB natLeB_trans natLeB_total q.2
    have hnd : q.2.Nodup := nodup_buildCharMap (by simp) q hq
    have hnd2 : (sortBy natLeB q.2).Nodup :=
      (List.Perm.nodup_iff (perm_sortBy natLeB q.2)).mpr hnd
    have hcomb := hsorted.and hnd2
    exact hcomb.imp (fun hab =>
      lt_of_le_of_ne (notGT_cmpN.mp hab.1) hab.2)
  · intro c i
    constructor
    · rintro ⟨v, hv, hi⟩
      simp only [indexCharsJp, List.mem_map] at hv
      obtain ⟨q, hq, heq⟩ := hv
      rw [Prod.ext_iff] at heq
      obtain ⟨h1, h2⟩ := heq
      have hiq : i ∈ q.2 := by
        rw [← (perm_sortBy natLeB q.2).mem_iff]
        rw [show sortBy natLeB q.2 = v from h2]
        exact hi
      have hmem : ∃ v0, (c, v0) ∈ buildCharMap w 0 (sortTerms w.terms) [] ∧ i ∈ v0 := by
        refine ⟨q.2, ?_, hiq⟩
        have : q = (c, q.2) := by
          rw [Prod.ext_iff]
          exact ⟨h1, rfl⟩
        rw [← this]
        exact hq
      rcases memCI_buildCharMap.mp hmem with h | h
      · simp at h
      · simpa using h
    · intro h
      have h2 := (@memCI_buildCharMap w (sortTerms w.terms) 0 [] c i).mpr
        (Or.inr (by simpa using h))
      obtain ⟨v0, hv0, hi⟩ := h2
      exact ⟨sortBy natLeB v0, List.mem_map.mpr ⟨(c, v0), hv0, rfl⟩,
        (perm_sortBy natLeB v0).mem_iff.mpr hi⟩

/-- Witness for C5 at the demo writer: position 0 is recorded under the
character of the term's expression "a". -/
theorem char_index_spec_witness :
    ∃ v, (Char.ofNat 97, v) ∈ indexCharsJp demoW ∧ (0 : Nat) ∈ v :=
  ((char_index_spec demoW).2 (Char.ofNat 97) 0).mpr
    ⟨0, by decide, by decide, by decide⟩

theorem leU32_u32le (n : Nat) :
    leU32 (n % 256) (n / 256 % 256) (n / 65536 % 256) (n / 16777216 % 256) = u32Mod n := by
  unfold leU32 u32Mod
  omega

theorem bytesToWords_wordsBytes (ws : List Nat) :
    bytesToWords (wordsBytes ws) = ws.map u32Mod := by
  induction ws with
  | nil => rfl
  | cons w rest ih =>
    show bytesToWords (u32le w ++ wordsBytes rest) = u32Mod w :: rest.map u32Mod
    rw [show u32le w ++ wordsBytes rest
        = w % 256 :: (w / 256 % 256 :: (w / 65536 % 256 :: (w / 16777216 % 256 ::
          wordsBytes rest))) from rfl]
    rw [bytesToWords, leU32_u32le, ih]

theorem u32le_length (n : Nat) : (u32le n).length = 4 := rfl

theorem wordsBytes_length (ws : List Nat) : (wordsBytes ws).length = 4 * ws.length := by
  induction ws with
  | nil => rfl
  | cons w rest ih =>
    show (u32le w ++ wordsBytes rest).length = 4 * (rest.length + 1)
    rw [List.length_append, u32le_length, ih]
    omega

theorem u32Mod_eq {x : Nat} (h : x < 4294967296) : u32Mod x = x := Nat.mod_eq_of_lt h

theorem tagRaw_roundtrip (t : TagRaw) (h : ∀ x ∈ TagRaw.words t, x < 4294967296) :
    TagRaw.ofBytes (TagRaw.bytes t) = t := by
  obtain ⟨a, b, c, d⟩ := t
  simp only [TagRaw.words, List.forall_mem_cons] at h
  simp only [TagRaw.ofBytes, TagRaw.bytes, bytesToWords_wordsBytes, TagRaw.words,
    List.map_cons, List.map_nil, TagRaw.ofWords, u32Mod]
  rw [TagRaw.mk.injEq]
  omega

theorem termRaw_roundtrip (t : TermRaw) (h : ∀ x ∈ TermRaw.words t, x < 4294967296) :
    TermRaw.ofBytes (TermRaw.bytes t) = t := by
  obtain ⟨e, r, sk, sc, sq, fr, so, ⟨g1, g2⟩, ⟨r1, r2⟩, ⟨t1, t2⟩, ⟨d1, d2⟩⟩ := t
  simp only [TermRaw.words, List.forall_mem_cons] at h
  simp only [TermRaw.ofBytes, TermRaw.bytes, bytesToWords_wordsBytes, TermRaw.words,
    List.map_cons, List.map_nil, TermRaw.ofWords, u32Mod]
  rw [TermRaw.mk.injEq, VecHandle.mk.injEq, VecHandle.mk.injEq, VecHandle.mk.injEq,
    VecHandle.mk.injEq]
  omega

theorem kanjiRaw_roundtrip (k : KanjiRaw) (h : ∀ x ∈ KanjiRaw.words k, x < 4294967296) :
    KanjiRaw.ofBytes (KanjiRaw.bytes k) = k := by
  obtain ⟨c, fr, so, ⟨m1, m2⟩, ⟨o1, o2⟩, ⟨u1, u2⟩, ⟨t1, t2⟩, ⟨s1, s2⟩⟩ := k
  simp only [KanjiRaw.words, List.forall_mem_cons] at h
  simp only [KanjiRaw.ofBytes, KanjiRaw.bytes, bytesToWords_wordsBytes, KanjiRaw.words,
    List.map_cons, List.map_nil, KanjiRaw.ofWords, u32Mod]
  rw [KanjiRaw.mk.injEq, VecHandle.mk.injEq, VecHandle.mk.injEq, VecHandle.mk.injEq,
    VecHandle.mk.injEq, VecHandle.mk.injEq]
  omega

theorem termIndex_roundtrip (t : TermIndex) (h : ∀ x ∈ TermIndex.words t, x < 4294967296) :
    TermIndex.ofBytes (TermIndex.bytes t) = t := by
  obtain ⟨k, tm⟩ := t
  simp only [TermIndex.words, List.forall_mem_cons] at h
  simp only [TermIndex.ofBytes, TermIndex.bytes, bytesToWords_wordsBytes, TermIndex.words,
    List.map_cons, List.map_nil, TermIndex.ofWords, u32Mod]
  rw [TermIndex.mk.injEq]
  omega

theorem charIndex_roundtrip (c : CharIndex) (h : ∀ x ∈ CharIndex.words c, x < 4294967296) :
    CharIndex.ofBytes (CharIndex.bytes c) = c := by
  obtain ⟨ch, ⟨o, l⟩⟩ := c
  simp only [CharIndex.words, List.forall_mem_cons] at h
  simp only [CharIndex.ofBytes, CharIndex.bytes, bytesToWords_wordsBytes, CharIndex.words,
    List.map_cons, List.map_nil, CharIndex.ofWords, u32Mod]
  rw [CharIndex.mk.injEq, VecHandle.mk.injEq]
  omega

theorem strHandle_roundtrip (s : StrHandle) (h : ∀ x ∈ StrHandle.words s, x < 4294967296) :
    StrHandle.ofBytes (StrHandle.bytes s) = s := by
  obtain ⟨o, l⟩ := s
  simp only [StrHandle.words, List.forall_mem_cons] at h
  simp only [StrHandle.ofBytes, StrHandle.bytes, bytesToWords_wordsBytes, StrHandle.words,
    List.map_cons, List.map_nil, StrHandle.ofWords, u32Mod]
  rw [StrHandle.mk.injEq]
  omega

theorem leWord_u32le (n : Nat) (h : n < 4294967296) : leWord (u32le n) = n := by
  show leU32 (n % 256) (n / 256 % 256) (n / 65536 % 256) (n / 16777216 % 256) = n
  rw [leU32_u32le]
  exact u32Mod_eq h

theorem tagRaw_bytes_length (t : TagRaw) : (TagRaw.bytes t).length = 16 := by
  rw [TagRaw.bytes, wordsBytes_length]; rfl

theorem termRaw_bytes_length (t : TermRaw) : (TermRaw.bytes t).length = 60 := by
  rw [TermRaw.bytes, wordsBytes_length]; rfl

theorem kanjiRaw_bytes_length (k : KanjiRaw) : (KanjiRaw.bytes k).length = 52 := by
  rw [KanjiRaw.bytes, wordsBytes_length]; rfl

theorem termIndex_bytes_length (t : TermIndex) : (TermIndex.bytes t).length = 8 := by
  rw [TermIndex.bytes, wordsBytes_length]; rfl

theorem charIndex_bytes_length (c : CharIndex) : (CharIndex.bytes c).length = 12 := by
  rw [CharIndex.bytes, wordsBytes_length]; rfl

theorem strHandle_bytes_length (s : StrHandle) : (StrHandle.bytes s).length = 8 := by
  rw [StrHandle.bytes, wordsBytes_length]; rfl

theorem write_raw_collector (s b : List Nat) : write_raw collector s b = .ok (s ++ b) := rfl

theorem write_len_collector (s : List Nat) (v : Nat) :
    write_len collector s v = .ok (s ++ u32le (u32Mod v)) := rfl

theorem write_items_collector {T : Type} (enc : T → List Nat) (s : List Nat)
    (items : List T) : write_items collector enc s items = .ok (s ++ items.flatMap enc) := by
  induction items generalizing s with
  | nil => simp [write_items]
  | cons t ts ih =>
    rw [write_items, write_raw_collector]
    show write_items collector enc (s ++ enc t) ts = _
    rw [ih]
    simp

theorem write_all_collector {T : Type} (enc : T → List Nat) (s : List Nat)
    (items : List T) :
    write_all collector enc s items = .ok (s ++ secBytes enc items) := by
  show write_items collector enc (s ++ u32le (u32Mod items.length)) items = _
  rw [write_items_collector]
  simp [secBytes]

theorem write_vec_collector (s vec : List Nat) :
    write_vec collector s vec = .ok (s ++ secBytes u32le vec) := by
  show write_items collector u32le (s ++ u32le (u32Mod vec.length)) vec = _
  rw [write_items_collector]
  simp [secBytes]

theorem raw_write_collector (raw : Raw) (s : List Nat) :
    Raw.write raw collector s = .ok (s ++ rawBytes raw) := by
  rw [Raw.write]
  simp only [bind, Except.bind, write_all_collector, write_vec_collector, write_len_collector,
    write_raw_collector]
  rw [rawBytes]
  simp [List.append_assoc]

theorem flatMap_length_const {T : Type} (enc : T → List Nat) (size : Nat)
    (items : List T) (hsize : ∀ t ∈ items, (enc t).length = size) :
    (items.flatMap enc).length = size * items.length := by
  induction items with
  | nil => simp
  | cons t ts ih =>
    rw [List.flatMap_cons, List.length_append, hsize t (List.mem_cons_self _ _),
      ih (fun x hx => hsize x (List.mem_cons_of_mem _ hx)), List.length_cons]
    ring

theorem decodeChunks_flatMap {T : Type} (size : Nat) (dec : List Nat → T)
    (enc : T → List Nat) (items : List T)
    (hsize : ∀ t ∈ items, (enc t).length = size)
    (hdec : ∀ t ∈ items, dec (enc t) = t) :
    decodeChunks size dec items.length (items.flatMap enc) = items := by
  induction items with
  | nil => rfl
  | cons t ts ih =>
    rw [List.flatMap_cons]
    show decodeChunks size dec (ts.length + 1) (enc t ++ ts.flatMap enc) = t :: ts
    rw [decodeChunks]
    have hlen := hsize t (List.mem_cons_self _ _)
    rw [← hlen, List.take_left, List.drop_left, hdec t (List.mem_cons_self _ _), hlen,
      ih (fun x hx => hsize x (List.mem_cons_of_mem _ hx))
         (fun x hx => hdec x (List.mem_cons_of_mem _ hx))]

theorem readSlice_section {T : Type} (size : Nat) (dec : List Nat → T)
    (enc : T → List Nat) (items : List T) (rest : List Nat)
    (hsize : ∀ t ∈ items, (enc t).length = size)
    (hdec : ∀ t ∈ items, dec (enc t) = t)
    (hcount : items.length < 4294967296) :
    readSlice size dec (secBytes enc items ++ rest) = some (items, rest) := by
  have hflat := flatMap_length_const enc size items hsize
  rw [secBytes, u32Mod_eq hcount]
  rw [show u32le items.length ++ items.flatMap enc ++ rest
      = items.length % 256 :: (items.length / 256 % 256 :: (items.length / 65536 % 256 ::
        (items.length / 16777216 % 256 :: (items.flatMap enc ++ rest)))) by
    simp [u32le]]
  rw [readSlice]
  rw [leU32_u32le, u32Mod_eq hcount]
  rw [if_pos (by rw [List.length_append, hflat]; omega)]
  rw [show size * items.length = (items.flatMap enc).length from hflat.symm]
  rw [List.take_left, List.drop_left]
  rw [decodeChunks_flatMap size dec enc items hsize hdec]

theorem flatMap_id_singleton (l : List Nat) : l.flatMap (fun b => [b]) = l := by
  induction l with
  | nil => rfl
  | cons x xs ih => simp [ih]

/-- Loading the exact byte stream written for a raw database recovers every
section, in order, bit-equal. -/
theorem load_rawBytes (raw : Raw) (h : RawWF raw) :
    DB.load (rawBytes raw) = some (dbOfRaw raw) := by
  obtain ⟨h1, h2, h3, h4, h5, h6, h7, h8, c1, c2, c3, c4, c5, c6, c7, c8, c9⟩ := h
  have e1 := readSlice_section 16 TagRaw.ofBytes TagRaw.bytes raw.tags
    (secBytes TermRaw.bytes raw.terms
      ++ (secBytes KanjiRaw.bytes raw.kanji
      ++ (secBytes TermIndex.bytes raw.index_prefix_jp
      ++ (secBytes TermIndex.bytes raw.index_suffix_jp
      ++ (secBytes CharIndex.bytes raw.index_chars_jp
      ++ (secBytes u32le raw.vector_data
      ++ (secBytes StrHandle.bytes raw.string_list
      ++ (u32le (u32Mod (utf8Len raw.string_data)) ++ strBytes raw.string_data))))))))
    (fun t _ => tagRaw_bytes_length t) (fun t ht => tagRaw_roundtrip t (h1 t ht)) c1
  have e2 := readSlice_section 60 TermRaw.ofBytes TermRaw.bytes raw.terms
    (secBytes KanjiRaw.bytes raw.kanji
      ++ (secBytes TermIndex.bytes raw.index_prefix_jp
      ++ (secBytes TermIndex.bytes raw.index_suffix_jp
      ++ (secBytes CharIndex.bytes raw.index_chars_jp
      ++ (secBytes u32le raw.vector_data
      ++ (secBytes StrHandle.bytes raw.string_list
      ++ (u32le (u32Mod (utf8Len raw.string_data)) ++ strBytes raw.string_data)))))))
    (fun t _ => termRaw_bytes_length t) (fun t ht => termRaw_roundtrip t (h2 t ht)) c2
  have e3 := readSlice_section 52 KanjiRaw.ofBytes KanjiRaw.bytes raw.kanji
    (secBytes TermIndex.bytes raw.index_prefix_jp
      ++ (secBytes TermIndex.bytes raw.index_suffix_jp
      ++ (secBytes CharIndex.bytes raw.index_chars_jp
      ++ (secBytes u32le raw.vector_data
      ++ (secBytes StrHandle.bytes raw.string_list
      ++ (u32le (u32Mod (utf8Len raw.string_data)) ++ strBytes raw.string_data))))))
    (fun t _ => kanjiRaw_bytes_length t) (fun t ht => kanjiRaw_roundtrip t (h3 t ht)) c3
  have e4 := readSlice_section 8 TermIndex.ofBytes TermIndex.bytes raw.index_prefix_jp
    (secBytes TermIndex.bytes raw.index_suffix_jp
      ++ (secBytes CharIndex.bytes raw.index_chars_jp
      ++ (secBytes u32le raw.vector_data
      ++ (secBytes StrHandle.bytes raw.string_list
      ++ (u32le (u32Mod (utf8Len raw.string_data)) ++ strBytes raw.string_data)))))
    (fun t _ => termIndex_bytes_length t) (fun t ht => termIndex_roundtrip t (h4 t ht)) c4
  have e5 := readSlice_section 8 TermIndex.ofBytes TermIndex.bytes raw.index_suffix_jp
    (secBytes CharIndex.bytes raw.index_chars_jp
      ++ (secBytes u32le raw.vector_data
      ++ (secBytes StrHandle.bytes raw.string_list
      ++ (u32le (u32Mod (utf8Len raw.string_data)) ++ strBytes raw.string_data))))
    (fun t _ => termIndex_bytes_length t) (fun t ht => termIndex_roundtrip t (h5 t ht)) c5
  have e6 := readSlice_section 12 CharIndex.ofBytes CharIndex.bytes raw.index_chars_jp
    (secBytes u32le raw.vector_data
      ++ (secBytes StrHandle.bytes raw.string_list
      ++ (u32le (u32Mod (utf8Len raw.string_data)) ++ strBytes raw.string_data)))
    (fun t _ => charIndex_bytes_length t) (fun t ht => charIndex_roundtrip t (h6 t ht)) c6
  have e7 := readSlice_section 4 leWord u32le raw.vector_data
    (secBytes StrHandle.bytes raw.string_list
      ++ (u32le (u32Mod (utf8Len raw.string_data)) ++ strBytes raw.string_data))
    (fun t _ => u32le_length t) (fun t ht => leWord_u32le t (h7 t ht)) c7
  have e8 := readSlice_section 8 StrHandle.ofBytes StrHandle.bytes raw.string_list
    (u32le (u32Mod (utf8Len raw.string_data)) ++ strBytes raw.string_data)
    (fun t _ => strHandle_bytes_length t) (fun t ht => strHandle_roundtrip t (h8 t ht)) c8
  have e9 : readSlice 1 byteOf
      (u32le (u32Mod (utf8Len raw.string_data)) ++ strBytes raw.string_data)
      = some (strBytes raw.string_data, ([] : List Nat)) := by
    have h0 := readSlice_section 1 byteOf (fun b => [b]) (strBytes raw.string_data) []
      (fun t _ => rfl) (fun t _ => rfl) c9
    rw [secBytes, flatMap_id_singleton] at h0
    simpa using h0
  rw [DB.load, rawBytes]
  simp only [e1, e2, e3, e4, e5, e6, e7, e8, e9, bind, Option.bind]
  rfl

theorem push_vec_snd (arena v : List Nat) :
    ∃ ext, (push_vec arena v).2 = arena ++ ext := by
  unfold push_vec
  split
  · exact ⟨[], by simp⟩
  · exact ⟨v, rfl⟩

theorem buildKanji_snd (arena : List Nat) (ks : List KanjiData) :
    ∃ ext, (buildKanji arena ks).2 = arena ++ ext := by
  induction ks generalizing arena with
  | nil => exact ⟨[], by simp [buildKanji]⟩
  | cons kj rest ih =>
    rw [buildKanji]
    obtain ⟨x1, e1⟩ := push_vec_snd arena kj.meanings
    obtain ⟨x2, e2⟩ := push_vec_snd (push_vec arena kj.meanings).2 kj.onyomi
    obtain ⟨x3, e3⟩ := push_vec_snd (push_vec (push_vec arena kj.meanings).2 kj.onyomi).2 kj.kunyomi
    obtain ⟨x4, e4⟩ := push_vec_snd _ kj.tags
    obtain ⟨x5, e5⟩ := push_vec_snd _ (kj.stats.flatMap (fun x => [x.1, x.2]))
    obtain ⟨x6, e6⟩ := ih _
    refine ⟨x1 ++ (x2 ++ (x3 ++ (x4 ++ (x5 ++ x6)))), ?_⟩
    show (buildKanji (push_vec (push_vec (push_vec (push_vec (push_vec arena kj.meanings).2
      kj.onyomi).2 kj.kunyomi).2 kj.tags).2 (kj.stats.flatMap (fun x => [x.1, x.2]))).2 rest).2 = _
    rw [e6, e5, e4, e3, e2, e1]
    simp [List.append_assoc]

theorem buildTerms_snd (arena : List Nat) (ts : List TermData) :
    ∃ ext, (buildTerms arena ts).2 = arena ++ ext := by
  induction ts generalizing arena with
  | nil => exact ⟨[], by simp [buildTerms]⟩
  | cons t rest ih =>
    rw [buildTerms]
    obtain ⟨x1, e1⟩ := push_vec_snd arena t.glossary
    obtain ⟨x2, e2⟩ := push_vec_snd (push_vec arena t.glossary).2 t.rules
    obtain ⟨x3, e3⟩ := push_vec_snd _ t.term_tags
    obtain ⟨x4, e4⟩ := push_vec_snd _ t.definition_tags
    obtain ⟨x5, e5⟩ := ih _
    refine ⟨x1 ++ (x2 ++ (x3 ++ (x4 ++ x5))), ?_⟩
    show (buildTerms (push_vec (push_vec (push_vec (push_vec arena t.glossary).2
      t.rules).2 t.term_tags).2 t.definition_tags).2 rest).2 = _
    rw [e5, e4, e3, e2, e1]
    simp [List.append_assoc]

theorem buildChars_snd (arena : List Nat) (cs : List (Char × List Nat)) :
    ∃ ext, (buildChars arena cs).2 = arena ++ ext := by
  induction cs generalizing arena with
  | nil => exact ⟨[], by simp [buildChars]⟩
  | cons p rest ih =>
    rw [buildChars]
    obtain ⟨x1, e1⟩ := push_vec_snd arena p.2
    obtain ⟨x2, e2⟩ := ih (push_vec arena p.2).2
    refine ⟨x1 ++ x2, ?_⟩
    show (buildChars (push_vec arena p.2).2 rest).2 = _
    rw [e2, e1]
    simp [List.append_assoc]

theorem sliceVH_sentinel (arena : List Nat) : sliceVH arena ⟨0, 0⟩ = [] := by
  simp [sliceVH]

/-- The slice addressed by a freshly pushed handle is the pushed list, in
any extension of the arena, provided no `u32` truncation occurred. -/
theorem push_vec_slice (arena v ext : List Nat)
    (ha : arena.length < 4294967296) (hv : v.length < 4294967296) :
    sliceVH ((push_vec arena v).2 ++ ext) (push_vec arena v).1 = v := by
  unfold push_vec
  split
  · rename_i h0
    rw [List.length_eq_zero.mp h0]
    exact sliceVH_sentinel _
  · show sliceVH (arena ++ v ++ ext) ⟨u32Mod arena.length, u32Mod v.length⟩ = v
    rw [sliceVH]
    show ((arena ++ v ++ ext).drop (u32Mod arena.length)).take (u32Mod v.length) = v
    rw [u32Mod_eq ha, u32Mod_eq hv, List.append_assoc, List.drop_left]
    exact List.take_left v ext

theorem push_vec_le (arena v : List Nat) :
    arena.length ≤ (push_vec arena v).2.length
    ∧ v.length ≤ (push_vec arena v).2.length := by
  unfold push_vec
  split
  · rename_i h
    exact ⟨Nat.le_refl _, by omega⟩
  · simp only [List.length_append]
    omega

/-- Every pushed term corresponds field-by-field to its raw record, with
each vector handle addressing exactly the pushed list in the final arena
(any extension of the build arena), absent `u32` truncation. -/
theorem buildTerms_matches (arena : List Nat) (ts : List TermData) (tail : List Nat)
    (hbig : ((buildTerms arena ts).2 ++ tail).length < 4294967296) :
    List.Forall₂ (termMatches ((buildTerms arena ts).2 ++ tail)) ts (buildTerms arena ts).1 := by
  induction ts generalizing arena tail with
  | nil => simp [buildTerms]
  | cons t rest ih =>
    have hgoal2 : (buildTerms arena (t :: rest)).2
        = (buildTerms (push_vec (push_vec (push_vec (push_vec arena t.glossary).2 t.rules).2
            t.term_tags).2 t.definition_tags).2 rest).2 := rfl
    have hgoal1 : (buildTerms arena (t :: rest)).1
        = { expression := t.expression, reading := t.reading, search_key := t.search_key,
            score := intBits t.score, sequence := t.sequence, frequency := t.frequency,
            source := t.source, glossary := (push_vec arena t.glossary).1,
            rules := (push_vec (push_vec arena t.glossary).2 t.rules).1,
            term_tags := (push_vec (push_vec (push_vec arena t.glossary).2 t.rules).2
              t.term_tags).1,
            definition_tags := (push_vec (push_vec (push_vec (push_vec arena t.glossary).2
              t.rules).2 t.term_tags).2 t.definition_tags).1 }
          :: (buildTerms (push_vec (push_vec (push_vec (push_vec arena t.glossary).2 t.rules).2
            t.term_tags).2 t.definition_tags).2 rest).1 := rfl
    rw [hgoal1, hgoal2]
    rw [hgoal2] at hbig
    set a1 := (push_vec arena t.glossary).2 with ha1
    set a2 := (push_vec a1 t.rules).2 with ha2
    set a3 := (push_vec a2 t.term_tags).2 with ha3
    set a4 := (push_vec a3 t.definition_tags).2 with ha4
    obtain ⟨x2, e2⟩ := push_vec_snd a1 t.rules
    obtain ⟨x3, e3⟩ := push_vec_snd a2 t.term_tags
    obtain ⟨x4, e4⟩ := push_vec_snd a3 t.definition_tags
    obtain ⟨x5, e5⟩ := buildTerms_snd a4 rest
    have l1 := push_vec_le arena t.glossary
    have l2 := push_vec_le a1 t.rules
    have l3 := push_vec_le a2 t.term_tags
    have l4 := push_vec_le a3 t.definition_tags
    rw [← ha1] at l1
    rw [← ha2] at l2
    rw [← ha3] at l3
    rw [← ha4] at l4
    have l5 : a4.length ≤ (buildTerms a4 rest).2.length := by
      rw [e5]; simp
    have htot : (buildTerms a4 rest).2.length + tail.length < 4294967296 := by
      simpa [List.length_append] using hbig
    refine List.Forall₂.cons ?_ (ih a4 tail hbig)
    refine ⟨rfl, rfl, rfl, rfl, rfl, rfl, rfl, ?_, ?_, ?_, ?_⟩
    · show sliceVH ((buildTerms a4 rest).2 ++ tail) (push_vec arena t.glossary).1 = t.glossary
      rw [e5, ha4, e4, ha3, e3, ha2, e2, ha1]
      simp only [List.append_assoc]
      exact push_vec_slice arena t.glossary _ (by omega) (by omega)
    · show sliceVH ((buildTerms a4 rest).2 ++ tail) (push_vec a1 t.rules).1 = t.rules
      rw [e5, ha4, e4, ha3, e3, ha2]
      simp only [List.append_assoc]
      exact push_vec_slice a1 t.rules _ (by omega) (by omega)
    · show sliceVH ((buildTerms a4 rest).2 ++ tail) (push_vec a2 t.term_tags).1 = t.term_tags
      rw [e5, ha4, e4, ha3]
      simp only [List.append_assoc]
      exact push_vec_slice a2 t.term_tags _ (by omega) (by omega)
    · show sliceVH ((buildTerms a4 rest).2 ++ tail) (push_vec a3 t.definition_tags).1
          = t.definition_tags
      rw [e5, ha4]
      simp only [List.append_assoc]
      exact push_vec_slice a3 t.definition_tags _ (by omega) (by omega)

/-- Every pushed kanji corresponds field-by-field to its raw record, with
each vector handle addressing exactly the pushed list (stats flattened) in
the final arena, absent `u32` truncation. -/
theorem buildKanji_matches (arena : List Nat) (ks : List KanjiData) (tail : List Nat)
    (hbig : ((buildKanji arena ks).2 ++ tail).length < 4294967296) :
    List.Forall₂ (kanjiMatches ((buildKanji arena ks).2 ++ tail)) ks (buildKanji arena ks).1 := by
  induction ks generalizing arena tail with
  | nil => simp [buildKanji]
  | cons kj rest ih =>
    have hgoal2 : (buildKanji arena (kj :: rest)).2
        = (buildKanji (push_vec (push_vec (push_vec (push_vec (push_vec arena kj.meanings).2
            kj.onyomi).2 kj.kunyomi).2 kj.tags).2
            (kj.stats.flatMap (fun x => [x.1, x.2]))).2 rest).2 := rfl
    have hgoal1 : (buildKanji arena (kj :: rest)).1
        = { character := kj.character.toNat, frequency := kj.frequency, source := kj.source,
            meanings := (push_vec arena kj.meanings).1,
            onyomi := (push_vec (push_vec arena kj.meanings).2 kj.onyomi).1,
            kunyomi := (push_vec (push_vec (push_vec arena kj.meanings).2 kj.onyomi).2
              kj.kunyomi).1,
            tags := (push_vec (push_vec (push_vec (push_vec arena kj.meanings).2 kj.onyomi).2
              kj.kunyomi).2 kj.tags).1,
            stats := (push_vec (push_vec (push_vec (push_vec (push_vec arena kj.meanings).2
              kj.onyomi).2 kj.kunyomi).2 kj.tags).2
              (kj.stats.flatMap (fun x => [x.1, x.2]))).1 }
          :: (buildKanji (push_vec (push_vec (push_vec (push_vec (push_vec arena kj.meanings).2
            kj.onyomi).2 kj.kunyomi).2 kj.tags).2
            (kj.stats.flatMap (fun x => [x.1, x.2]))).2 rest).1 := rfl
    rw [hgoal1, hgoal2]
    rw [hgoal2] at hbig
    set a1 := (push_vec arena kj.meanings).2 with ha1
    set a2 := (push_vec a1 kj.onyomi).2 with ha2
    set a3 := (push_vec a2 kj.kunyomi).2 with ha3
    set a4 := (push_vec a3 kj.tags).2 with ha4
    set a5 := (push_vec a4 (kj.stats.flatMap (fun x => [x.1, x.2]))).2 with ha5
    obtain ⟨x2, e2⟩ := push_vec_snd a1 kj.onyomi
    obtain ⟨x3, e3⟩ := push_vec_snd a2 kj.kunyomi
    obtain ⟨x4, e4⟩ := push_vec_snd a3 kj.tags
    obtain ⟨x5, e5⟩ := push_vec_snd a4 (kj.stats.flatMap (fun x => [x.1, x.2]))
    obtain ⟨x6, e6⟩ := buildKanji_snd a5 rest
    have l1 := push_vec_le arena kj.meanings
    have l2 := push_vec_le a1 kj.onyomi
    have l3 := push_vec_le a2 kj.kunyomi
    have l4 := push_vec_le a3 kj.tags
    have l5 := push_vec_le a4 (kj.stats.flatMap (fun x => [x.1, x.2]))
    rw [← ha1] at l1
    rw [← ha2] at l2
    rw [← ha3] at l3
    rw [← ha4] at l4
    rw [← ha5] at l5
    have l6 : a5.length ≤ (buildKanji a5 rest).2.length := by
      rw [e6]; simp
    have htot : (buildKanji a5 rest).2.length + tail.length < 4294967296 := by
      simpa [List.length_append] using hbig
    refine List.Forall₂.cons ?_ (ih a5 tail hbig)
    refine ⟨rfl, rfl, rfl, ?_, ?_, ?_, ?_, ?_⟩
    · show sliceVH ((buildKanji a5 rest).2 ++ tail) (push_vec arena kj.meanings).1 = kj.meanings
      rw [e6, ha5, e5, ha4, e4, ha3, e3, ha2, e2, ha1]
      simp only [List.append_assoc]
      exact push_vec_slice arena kj.meanings _ (by omega) (by omega)
    · show sliceVH ((buildKanji a5 rest).2 ++ tail) (push_vec a1 kj.onyomi).1 = kj.onyomi
      rw [e6, ha5, e5, ha4, e4, ha3, e3, ha2]
      simp only [List.append_assoc]
      exact push_vec_slice a1 kj.onyomi _ (by omega) (by omega)
    · show sliceVH ((buildKanji a5 rest).2 ++ tail) (push_vec a2 kj.kunyomi).1 = kj.kunyomi
      rw [e6, ha5, e5, ha4, e4, ha3]
      simp only [List.append_assoc]
      exact push_vec_slice a2 kj.kunyomi _ (by omega) (by omega)
    · show sliceVH ((buildKanji a5 rest).2 ++ tail) (push_vec a3 kj.tags).1 = kj.tags
      rw [e6, ha5, e5, ha4]
      simp only [List.append_assoc]
      exact push_vec_slice a3 kj.tags _ (by omega) (by omega)
    · show sliceVH ((buildKanji a5 rest).2 ++ tail)
          (push_vec a4 (kj.stats.flatMap (fun x => [x.1, x.2]))).1
          = kj.stats.flatMap (fun x => [x.1, x.2])
      rw [e6, ha5]
      simp only [List.append_assoc]
      exact push_vec_slice a4 (kj.stats.flatMap (fun x => [x.1, x.2])) _ (by omega) (by omega)

/-- C1 (amended): for any builder state reached by intake operations in
which at least one character was indexed (some term has a nonempty
expression or reading — otherwise `Writer::write` panics dividing its
statistics by `num_char_keys = 0` before emitting a byte), writing to a
sink that accepts all bytes then loading the written bytes succeeds and
yields every section bit-equal and in the authoritative order (tags, terms,
kanji, prefix index, suffix index, char index, arena, string descriptors,
string blob); tags keep intake order, terms are reordered by frequency
descending then score descending, kanji by frequency descending, and every
record field matches the pushed one, vector handles addressing exactly the
pushed lists. -/
theorem write_load_roundtrip (w : Writer) (hwf : RawWF (writerRaw w))
    (hchars : (indexCharsJp w).length ≠ 0) :
    Writer.write w collector [] = some (Except.ok (rawBytes (writerRaw w)))
    ∧ DB.load (rawBytes (writerRaw w)) = some (dbOfRaw (writerRaw w))
    ∧ (writerRaw w).tags = w.tags.map tagRawOf
    ∧ List.Forall₂ (termMatches (writerRaw w).vector_data)
        (sortTerms w.terms) (writerRaw w).terms
    ∧ List.Forall₂ (kanjiMatches (writerRaw w).vector_data)
        (sortKanji w.kanji) (writerRaw w).kanji := by
  have harena : (writerRaw w).vector_data.length < 4294967296 := hwf.2.2.2.2.2.2.2.2.2.2.2.2.2.2.1
  refine ⟨?_, load_rawBytes _ hwf, rfl, ?_, ?_⟩
  · rw [Writer.write, if_neg hchars, raw_write_collector]
    simp
  · obtain ⟨x, hx⟩ := buildChars_snd
      (buildTerms (buildKanji [] (sortKanji w.kanji)).2 (sortTerms w.terms)).2 (indexCharsJp w)
    have hv : (writerRaw w).vector_data
        = (buildTerms (buildKanji [] (sortKanji w.kanji)).2 (sortTerms w.terms)).2 ++ x := hx
    have hbound : ((buildTerms (buildKanji [] (sortKanji w.kanji)).2
        (sortTerms w.terms)).2 ++ x).length < 4294967296 := by
      rw [← hv]; exact harena
    have hm := buildTerms_matches (buildKanji [] (sortKanji w.kanji)).2
      (sortTerms w.terms) x hbound
    rw [← hv] at hm
    exact hm
  · obtain ⟨xt, ht⟩ := buildTerms_snd (buildKanji [] (sortKanji w.kanji)).2 (sortTerms w.terms)
    obtain ⟨xc, hc⟩ := buildChars_snd
      (buildTerms (buildKanji [] (sortKanji w.kanji)).2 (sortTerms w.terms)).2 (indexCharsJp w)
    have hv : (writerRaw w).vector_data
        = (buildKanji [] (sortKanji w.kanji)).2 ++ (xt ++ xc) := by
      show (buildChars (buildTerms (buildKanji [] (sortKanji w.kanji)).2
        (sortTerms w.terms)).2 (indexCharsJp w)).2 = _
      rw [hc, ht, List.append_assoc]
    have hbound : ((buildKanji [] (sortKanji w.kanji)).2 ++ (xt ++ xc)).length
        < 4294967296 := by
      rw [← hv]; exact harena
    have hm := buildKanji_matches [] (sortKanji w.kanji) (xt ++ xc) hbound
    rw [← hv] at hm
    exact hm

/-- Witness for C1 at the demo writer (one term, two interned strings,
char index nonempty). -/
theorem write_load_roundtrip_witness :
    Writer.write demoW collector [] = some (Except.ok (rawBytes (writerRaw demoW)))
    ∧ DB.load (rawBytes (writerRaw demoW)) = some (dbOfRaw (writerRaw demoW))
    ∧ List.Forall₂ (termMatches (writerRaw demoW).vector_data)
        (sortTerms demoW.terms) (writerRaw demoW).terms := by
  have h := write_load_roundtrip demoW (by unfold RawWF; decide) (by decide)
  exact ⟨h.1, h.2.1, h.2.2.2.1⟩

/-- C1 counterexample: the claim quantifies over every intake sequence,
but on the empty sequence no character is indexed, the statistics division
panics and the write emits nothing: it yields `none`, not Ok bytes to
load. -/
theorem write_load_claim_counterexample :
    (indexCharsJp Writer.new).length = 0
    ∧ Writer.write Writer.new collector [] = none
    ∧ Writer.write Writer.new collector []
        ≠ some (Except.ok (rawBytes (writerRaw Writer.new))) := by
  refine ⟨rfl, rfl, ?_⟩
  intro h
  have h2 : (none : Option (Except Empty (List Nat)))
      = some (Except.ok (rawBytes (writerRaw Writer.new))) := h
  exact Option.noConfusion h2

/-- C2 (code bug): on a freshly created builder no character is indexed,
so `Writer::write` divides `total_indexes = 0` by `num_char_keys = 0` in
its statistics logging (a `usize` division, which panics) before emitting
a single byte — the write does not return Ok. The serialized image it
would have produced does load back to exactly the claim's expected empty
database: empty tables, empty arena, a string table of length 1 containing
only the empty string's descriptor, and an empty blob. -/
theorem empty_builder_write_panics :
    (indexCharsJp Writer.new).length = 0
    ∧ Writer.write Writer.new collector [] = none
    ∧ DB.load (rawBytes (writerRaw Writer.new))
      = some { tags := [], terms := [], kanji := [], index_prefix_jp := [],
               index_suffix_jp := [], index_chars_jp := [], vector_data := [],
               string_list := [{ offset := 0, length := 0 }], string_data := [] } := by
  refine ⟨rfl, rfl, ?_⟩
  decide

/-- C8: `push_vec` returns the sentinel `(0, 0)` handle and leaves the
arena unchanged on empty input; on non-empty input the handle's length is
nonzero and the arena grows by exactly the list's elements at the handle's
offset; and every returned handle with length 0 has offset 0 and addresses
no arena bytes. -/
theorem push_vec_spec (arena v : List Nat)
    (ha : arena.length < 4294967296) (hv : v.length < 4294967296) :
    (v = [] → push_vec arena v = (⟨0, 0⟩, arena))
    ∧ (v ≠ [] →
        (push_vec arena v).1.length ≠ 0
        ∧ (push_vec arena v).2 = arena ++ v
        ∧ sliceVH (push_vec arena v).2 (push_vec arena v).1 = v)
    ∧ ((push_vec arena v).1.length = 0 →
        (push_vec arena v).1.offset = 0 ∧ (push_vec arena v).2 = arena
        ∧ sliceVH (push_vec arena v).2 (push_vec arena v).1 = []) := by
  refine ⟨?_, ?_, ?_⟩
  · intro h
    subst h
    rfl
  · intro h
    have hne : v.length ≠ 0 := by simpa using h
    have hs := push_vec_slice arena v [] ha hv
    rw [List.append_nil] at hs
    unfold push_vec at hs ⊢
    rw [if_neg hne] at hs ⊢
    refine ⟨?_, rfl, hs⟩
    show u32Mod v.length ≠ 0
    rw [u32Mod_eq hv]
    exact hne
  · intro h
    by_cases h0 : v.length = 0
    · unfold push_vec at h ⊢
      rw [if_pos h0] at h ⊢
      exact ⟨rfl, rfl, sliceVH_sentinel _⟩
    · unfold push_vec at h
      rw [if_neg h0] at h
      exact absurd (by rwa [u32Mod_eq hv] at h) h0

/-- Witness for C8: the empty list and a singleton list on an empty arena. -/
theorem push_vec_spec_witness :
    push_vec [] [] = (⟨0, 0⟩, [])
    ∧ ((push_vec [] [7]).1.length ≠ 0 ∧ (push_vec [] [7]).2 = [] ++ [7]
        ∧ sliceVH (push_vec [] [7]).2 (push_vec [] [7]).1 = [7]) := by
  have h1 := push_vec_spec [] [] (by decide) (by decide)
  have h2 := push_vec_spec [] [7] (by decide) (by decide)
  exact ⟨h1.1 rfl, h2.2.1 (by decide)⟩

theorem write_items_ok {σ ε T : Type} {k : Sink σ ε}
    (hk : ∀ st b, ∃ n st2, k.write st b = Except.ok (n, st2))
    (enc : T → List Nat) (s : σ) (items : List T) :
    ∃ s2, write_items k enc s items = Except.ok s2 := by
  induction items generalizing s with
  | nil => exact ⟨s, rfl⟩
  | cons t ts ih =>
    obtain ⟨n, st2, he⟩ := hk s (enc t)
    rw [write_items, write_raw, he]
    show ∃ s2, write_items k enc st2 ts = Except.ok s2
    exact ih st2

theorem write_len_ok {σ ε : Type} {k : Sink σ ε}
    (hk : ∀ st b, ∃ n st2, k.write st b = Except.ok (n, st2)) (s : σ) (v : Nat) :
    ∃ s2, write_len k s v = Except.ok s2 := by
  obtain ⟨n, st2, he⟩ := hk s (u32le (u32Mod v))
  refine ⟨st2, ?_⟩
  rw [write_len, write_u32, write_raw, he]

theorem write_all_ok {σ ε T : Type} {k : Sink σ ε}
    (hk : ∀ st b, ∃ n st2, k.write st b = Except.ok (n, st2))
    (enc : T → List Nat) (s : σ) (items : List T) :
    ∃ s2, write_all k enc s items = Except.ok s2 := by
  obtain ⟨s1, h1⟩ := write_len_ok hk s items.length
  rw [write_all, h1]
  show ∃ s2, write_items k enc s1 items = Except.ok s2
  exact write_items_ok hk enc s1 items

theorem write_vec_ok {σ ε : Type} {k : Sink σ ε}
    (hk : ∀ st b, ∃ n st2, k.write st b = Except.ok (n, st2)) (s : σ) (vec : List Nat) :
    ∃ s2, write_vec k s vec = Except.ok s2 := by
  obtain ⟨s1, h1⟩ := write_len_ok hk s vec.length
  rw [write_vec, h1]
  show ∃ s2, write_items k u32le s1 vec = Except.ok s2
  exact write_items_ok hk u32le s1 vec

/-- C9: `Raw::write` returns Ok whenever every call to the sink's `write`
returns `Ok(n)` for any reported count `n`: the counts are never compared
to the buffer lengths, so a sink performing short writes still yields Ok
even though fewer bytes than the full format were delivered. -/
theorem raw_write_ok {σ ε : Type} (raw : Raw) (k : Sink σ ε) (s : σ)
    (hk : ∀ st b, ∃ n st2, k.write st b = Except.ok (n, st2)) :
    ∃ s2, Raw.write raw k s = Except.ok s2 := by
  obtain ⟨s1, h1⟩ := write_all_ok hk TagRaw.bytes s raw.tags
  obtain ⟨s2, h2⟩ := write_all_ok hk TermRaw.bytes s1 raw.terms
  obtain ⟨s3, h3⟩ := write_all_ok hk KanjiRaw.bytes s2 raw.kanji
  obtain ⟨s4, h4⟩ := write_all_ok hk TermIndex.bytes s3 raw.index_prefix_jp
  obtain ⟨s5, h5⟩ := write_all_ok hk TermIndex.bytes s4 raw.index_suffix_jp
  obtain ⟨s6, h6⟩ := write_all_ok hk CharIndex.bytes s5 raw.index_chars_jp
  obtain ⟨s7, h7⟩ := write_vec_ok hk s6 raw.vector_data
  obtain ⟨s8, h8⟩ := write_all_ok hk StrHandle.bytes s7 raw.string_list
  obtain ⟨s9, h9⟩ := write_len_ok hk s8 (utf8Len raw.string_data)
  obtain ⟨n, s10, h10⟩ := hk s9 (strBytes raw.string_data)
  refine ⟨s10, ?_⟩
  rw [Raw.write]
  simp only [bind, Except.bind, h1, h2, h3, h4, h5, h6, h7, h8, h9]
  rw [write_raw, h10]

/-- Witness for C9: a sink that accepts every buffer but always reports 0
bytes written still makes the write return Ok. -/
theorem raw_write_ok_witness :
    ∃ s2, Raw.write (writerRaw Writer.new)
      (⟨fun st _ => Except.ok (0, st)⟩ : Sink Unit Unit) () = Except.ok s2 :=
  raw_write_ok (writerRaw Writer.new) ⟨fun st _ => Except.ok (0, st)⟩ ()
    (fun st b => ⟨0, st, rfl⟩)

end JpDict
